import Mathlib

/-!
Verification development for the MythosCards checklist-expansion and
image-matching core (src/images.py, src/expand.py, src/headers.py,
src/validate.py, src/utils.py), shallowly embedded in Lean 4.

Strings are processed at the level of their character lists; Python regular
expressions over fixed patterns are translated into explicit suffix/prefix
decompositions with the same match semantics. Floating-point quantities
(the similarity ratio `2*M/(len(a)+len(b))` and the `0.70` threshold) are
modelled as exact rationals; at the token lengths involved the comparison
against the threshold agrees with the double-precision one.
-/

namespace Mythos

/-! ## Text normalizer (images.py, `normalize_for_matching`) -/

/-- Transliteration table `TURKISH_TO_ASCII` from images.py:
`str.maketrans('çÇğĞıIİşŞöÖüÜâÂ', 'cCgGiIIsSoOuUaA')`. -/
def turkishToAscii (c : Char) : Char :=
  if c = 'ç' then 'c' else if c = 'Ç' then 'C'
  else if c = 'ğ' then 'g' else if c = 'Ğ' then 'G'
  else if c = 'ı' then 'i' else if c = 'I' then 'I'
  else if c = 'İ' then 'I'
  else if c = 'ş' then 's' else if c = 'Ş' then 'S'
  else if c = 'ö' then 'o' else if c = 'Ö' then 'O'
  else if c = 'ü' then 'u' else if c = 'Ü' then 'U'
  else if c = 'â' then 'a' else if c = 'Â' then 'A'
  else c

/-- Whether a character is in the class `[a-z0-9]` of the regex in
`normalize_for_matching`. -/
def isLowerAlnum (c : Char) : Bool :=
  ('a' ≤ c && c ≤ 'z') || ('0' ≤ c && c ≤ '9')

/-- One step of collapsing runs of underscores to a single underscore
(`re.sub(r'_+', '_', ...)`); the flag records whether the previous
character emitted was an underscore. -/
def collapseGo : List Char → Bool → List Char
  | [], _ => []
  | c :: cs, prevU =>
    if c = '_' then
      if prevU then collapseGo cs true else '_' :: collapseGo cs true
    else c :: collapseGo cs false

/-- Collapse runs of underscores to one underscore. -/
def collapseUnderscores (l : List Char) : List Char := collapseGo l false

/-- Strip leading and trailing underscores (`str.strip('_')`). -/
def stripUnderscores (l : List Char) : List Char :=
  ((l.dropWhile (fun c => c = '_')).reverse.dropWhile (fun c => c = '_')).reverse

/-- The single-regex replacement step of the source,
`re.sub(r'[^a-z0-9]', '_', ...)`: every character outside `[a-z0-9]`
becomes an underscore. -/
def replaceNonAlnum (c : Char) : Char :=
  if isLowerAlnum c then c else '_'

/-- `normalize_for_matching` from images.py: transliterate Turkish characters,
lowercase, replace every character outside `[a-z0-9]` by an underscore,
collapse runs of underscores, and strip leading/trailing underscores.
`Char.toLower` models `str.lower` (ASCII range; Turkish letters are
transliterated before lowering, as in the source). -/
def normalize_for_matching (text : String) : String :=
  if text = "" then "" else
  String.mk (stripUnderscores (collapseUnderscores
    (text.data.map (fun c => replaceNonAlnum (Char.toLower (turkishToAscii c))))))

/-- Modelled from the spec (§4.1, step 3): replace space and hyphen with
underscore. -/
def specStepSpaceHyphen (c : Char) : Char :=
  if c = ' ' || c = '-' then '_' else c

/-- Modelled from the spec (§4.1, step 4): delete every character that is not
in `[a-z0-9_]`. -/
def specStepDelete (l : List Char) : List Char :=
  l.filter (fun c => isLowerAlnum c || c = '_')

/-- Modelled from the spec (§4.1): the normalization pipeline exactly as the
spec words it — transliterate, lowercase, replace space/hyphen with
underscore, DELETE every character outside `[a-z0-9_]`, collapse underscore
runs, trim underscores. -/
def specNormalize (text : String) : String :=
  String.mk (stripUnderscores (collapseUnderscores (specStepDelete
    ((((text.data.map turkishToAscii).map Char.toLower).map specStepSpaceHyphen)))))

/-- The spec pipeline with step 4 amended: characters outside `[a-z0-9_]` are
REPLACED by an underscore instead of deleted. -/
def specStepReplace (c : Char) : Char :=
  if isLowerAlnum c || c = '_' then c else '_'

/-- The amended spec pipeline: same six steps in the same order, with the
deletion step replaced by replacement-with-underscore. -/
def amendedSpecNormalize (text : String) : String :=
  String.mk (stripUnderscores (collapseUnderscores
    ((((text.data.map turkishToAscii).map Char.toLower).map specStepSpaceHyphen).map
      specStepReplace)))

/-! ## Cell values and `safe_int` (utils.py) -/

/-- A spreadsheet cell as seen by the expansion code: a numeric value
(pandas int/float, represented exactly as a rational), a text value,
or a missing value (NaN, for which `pd.notna` is false). -/
inductive CellValue where
  | num (q : ℚ)
  | text (s : String)
  | blank
deriving DecidableEq, Repr

/-- Truncation toward zero, as Python `int(...)` applied to a float. -/
def ratTrunc (q : ℚ) : ℤ :=
  if 0 ≤ q then ⌊q⌋ else ⌈q⌉

/-- Digits of a character list read as a natural number (most significant
first); `none` when a non-digit occurs. -/
def digitsToNat? : List Char → ℕ → Option ℕ
  | [], acc => some acc
  | c :: cs, acc =>
    if c.isDigit then digitsToNat? cs (acc * 10 + (c.toNat - '0'.toNat)) else none

/-- Parse an unsigned decimal mantissa `digits[.digits]` with at least one
digit, returning its exact value as a numerator/denominator pair. -/
def parseMantissa (l : List Char) : Option (ℕ × ℕ) :=
  let intPart := l.takeWhile Char.isDigit
  let rest := l.dropWhile Char.isDigit
  match rest with
  | [] =>
    if intPart = [] then none
    else (digitsToNat? intPart 0).map (fun n => (n, 1))
  | '.' :: fracs =>
    if fracs.all Char.isDigit ∧ (intPart ≠ [] ∨ fracs ≠ []) then
      match digitsToNat? intPart 0, digitsToNat? fracs 0 with
      | some n, some f => some (n * 10 ^ fracs.length + f, 10 ^ fracs.length)
      | _, _ => none
    else none
  | _ => none

/-- Parse an optional exponent suffix `e±digits`; `some 0` when absent. -/
def parseExponent : List Char → Option ℤ
  | [] => some 0
  | c :: cs =>
    if c = 'e' ∨ c = 'E' then
      match cs with
      | '+' :: ds => if ds ≠ [] then (digitsToNat? ds 0).map (fun n => (n : ℤ)) else none
      | '-' :: ds => if ds ≠ [] then (digitsToNat? ds 0).map (fun n => -(n : ℤ)) else none
      | ds => if ds ≠ [] then (digitsToNat? ds 0).map (fun n => (n : ℤ)) else none
    else none

/-- Strip leading and trailing whitespace of a character list
(Python `str.strip()`). -/
def trimWS (l : List Char) : List Char :=
  ((l.dropWhile Char.isWhitespace).reverse.dropWhile Char.isWhitespace).reverse

/-- Apply a decimal exponent to an exact mantissa fraction `num / den`. -/
def applyExponent (num den : ℕ) (e : ℤ) : ℚ :=
  if 0 ≤ e then mkRat (num * 10 ^ e.toNat) den
  else mkRat num (den * 10 ^ (-e).toNat)

/-- Model of Python `float(s)` on finite decimal literals: strip surrounding
whitespace, optional sign, mantissa, optional exponent. Returns `none` when
`float(s)` would raise `ValueError`. -/
def parseFloat? (s : String) : Option ℚ :=
  let l := trimWS s.data
  let (neg, body) : Bool × List Char :=
    match l with
    | '+' :: rest => (false, rest)
    | '-' :: rest => (true, rest)
    | rest => (false, rest)
  let mantChars := body.takeWhile (fun c => c.isDigit || c = '.')
  let expChars := body.dropWhile (fun c => c.isDigit || c = '.')
  match parseMantissa mantChars, parseExponent expChars with
  | some (num, den), some e =>
    some (if neg then -(applyExponent num den e) else applyExponent num den e)
  | _, _ => none

/-- `is_numeric_value` from utils.py: numbers are numeric (NaN is not),
text is numeric exactly when `float(str(value))` succeeds. -/
def is_numeric_value : CellValue → Bool
  | .num _ => true
  | .text s => (parseFloat? s).isSome
  | .blank => false

/-- `safe_int` from utils.py: `int(float(str(value)))` when the value is
numeric, `0` otherwise. -/
def safe_int (v : CellValue) : ℤ :=
  match v with
  | .num q => ratTrunc q
  | .text s =>
    match parseFloat? s with
    | some q => ratTrunc q
    | none => 0
  | .blank => 0

/-- The pre-`safe_int` gate used throughout expand.py and validate.py:
`pd.notna(cell) and str(cell).strip()` — the cell is not NaN and its string
form is not whitespace-only (numbers always print non-blank). -/
def nonblankGate : CellValue → Bool
  | .num _ => true
  | .text s => trimWS s.data ≠ []
  | .blank => false

/-! ## Header classification (headers.py) -/

/-- A variant column's denominator: numeric (`/5`) or a free-text label
(`"Short Print"`), mirroring `VariantInfo.denominator : Union[int, str]`. -/
inductive Denom where
  | num (n : ℕ)
  | text (s : String)
deriving DecidableEq, Repr

/-- `VariantInfo` from headers.py. -/
structure VariantInfo where
  column_name : String
  denominator : Denom
  is_signed : Bool
  display_name : String
deriving DecidableEq, Repr

/-- Value of a digit string (`int` applied to a string of digits). -/
def digitsVal (l : List Char) : ℕ :=
  l.foldl (fun acc c => acc * 10 + (c.toNat - '0'.toNat)) 0

/-- Character class `[A-Za-zÇçĞğİıÖöŞşÜü]` of the `text_denom` patterns. -/
def letterClass (c : Char) : Bool :=
  c.isAlpha || c ∈ ['Ç', 'ç', 'Ğ', 'ğ', 'İ', 'ı', 'Ö', 'ö', 'Ş', 'ş', 'Ü', 'ü']

/-- The body class `[A-Za-zÇçĞğİıÖöŞşÜü0-9\s]` of the `text_denom` patterns. -/
def textBodyClass (c : Char) : Bool :=
  letterClass c || c.isDigit || c.isWhitespace

/-- Whether `l` is a valid `text_denom` capture: nonempty, first character a
letter, all characters letters/digits/whitespace. -/
def textClassOK : List Char → Bool
  | [] => false
  | c :: cs => letterClass c && cs.all textBodyClass

/-- Whether `rest` matches the regex tail `\s+İmzalı$`: one or more
whitespace characters followed by exactly `İmzalı`. -/
def wsThenImzali (rest : List Char) : Bool :=
  match rest with
  | [] => false
  | c :: _ => c.isWhitespace && rest.dropWhile Char.isWhitespace = ("İmzalı").data

/-- Drop the final `n` characters of a character list. -/
def dropRightN (l : List Char) (n : ℕ) : List Char :=
  (l.reverse.drop n).reverse

/-- `RESERVED_COLUMN_NAMES` from headers.py. -/
def reservedColumnNames : List String :=
  ["seri adı", "seri adi", "oyuncu adı", "oyuncu adi", "grup", "grup (opsiyonel)", "base"]

/-- Python `str.lower` restricted to the ASCII range (Turkish lowercase
letters occurring in reserved names are unaffected by lowering). -/
def pythonLower (s : String) : String := String.mk (s.data.map Char.toLower)

/-- Python `str.strip()`: remove leading and trailing whitespace. -/
def pythonStrip (s : String) : String := String.mk (trimWS s.data)

/-- `HeaderProcessor._detect_variant` from headers.py: the ordered recognizer
list over the normalized header — `1/1`, `1/1 İmzalı`, `/digits`,
`/digits İmzalı`, signed text denominator, unsigned text denominator;
reserved structural names are not text denominators. -/
def detectVariant (h : String) : Option VariantInfo :=
  let l := h.data
  if h = "1/1" then
    some ⟨h, .num 1, false, "1/1"⟩
  else if (match l with
           | '1' :: '/' :: '1' :: rest => wsThenImzali rest
           | _ => false) then
    some ⟨h, .num 1, true, "1/1 İmzalı"⟩
  else if (match l with
           | '/' :: ds => ds ≠ [] && ds.all Char.isDigit
           | _ => false) then
    match l with
    | _ :: ds => some ⟨h, .num (digitsVal ds), false, "/" ++ toString (digitsVal ds)⟩
    | _ => none
  else if (match l with
           | '/' :: rest =>
             rest.takeWhile Char.isDigit ≠ [] && wsThenImzali (rest.dropWhile Char.isDigit)
           | _ => false) then
    match l with
    | _ :: rest =>
      let n := digitsVal (rest.takeWhile Char.isDigit)
      some ⟨h, .num n, true, "/" ++ toString n ++ " İmzalı"⟩
    | _ => none
  else if ("İmzalı").data.isSuffixOf l &&
          (let pre := dropRightN l 6
           pre ≠ [] && (pre.getLast?.elim false Char.isWhitespace) && textClassOK pre) then
    let denomText := pythonStrip (String.mk (dropRightN l 6))
    if pythonLower denomText ∈ reservedColumnNames then none
    else some ⟨h, .text denomText, true, denomText ++ " İmzalı"⟩
  else if textClassOK l then
    let denomText := pythonStrip h
    if pythonLower denomText ∈ reservedColumnNames then none
    else some ⟨h, .text denomText, false, denomText⟩
  else none

/-- One insertion step of `get_variant_pairs`: slot the variant into the
(normal, signed) pair for its denominator, preserving key insertion order. -/
def insertPair (ps : List (Denom × Option VariantInfo × Option VariantInfo))
    (vi : VariantInfo) : List (Denom × Option VariantInfo × Option VariantInfo) :=
  match ps with
  | [] =>
    [(vi.denominator, if vi.is_signed then (none, some vi) else (some vi, none))]
  | (d, n, s) :: rest =>
    if d = vi.denominator then
      (d, if vi.is_signed then (n, some vi) else (some vi, s)) :: rest
    else (d, n, s) :: insertPair rest vi

/-- `HeaderProcessor.get_variant_pairs`: variants grouped per denominator
into (normal, signed) slots, keyed in insertion order. -/
def variantPairs (variants : List VariantInfo) :
    List (Denom × Option VariantInfo × Option VariantInfo) :=
  variants.foldl insertPair []

/-- The numeric-column set of `RowExpander._merge_duplicate_rows`: the column
names of every slotted variant (normal then signed per pair), plus `"Base"`
when a Base column exists. Custom-label columns are not included. -/
def numericColumns (headers : List String) : List String :=
  let variants := headers.filterMap detectVariant
  ((variantPairs variants).flatMap
    (fun p => (([p.2.1, p.2.2].filterMap id).map VariantInfo.column_name))) ++
  (if headers.contains ("Base") then [("Base")] else [])

/-- Columns skipped by `detect_custom_labels`. -/
def skipColumns : List String :=
  ["Base", "Seri Adı", "Oyuncu Adı", "Grup", "Grup (opsiyonel)"]

/-- `HeaderProcessor.detect_custom_labels` membership test: a header is a
custom label when it is neither a skipped structural column nor a variant. -/
def isCustomLabel (h : String) : Bool :=
  !(skipColumns.contains h) && (detectVariant h).isNone

/-! ## Row expansion (expand.py) -/

/-- `CardLine` from expand.py (`group : Optional[str]` modelled with `""`
for `None`). -/
structure CardLine where
  text : String
  player : String
  label : String
  variant_type : String
  denominator : ℕ
  number : ℕ
  is_signed : Bool
  series : String
  group : String
deriving DecidableEq, Repr

/-- Substring containment, Python's `in` on strings. -/
def containsSub : List Char → List Char → Bool
  | [], pat => pat.isEmpty
  | c :: t, pat => pat.isPrefixOf (c :: t) || containsSub t pat

/-- `RowExpander._build_variant_line`. -/
def buildVariantLine (player label : String) (denominator number : ℕ)
    (is_signed : Bool) : String :=
  player ++ " " ++ label ++ " (" ++ toString number ++ "/" ++ toString denominator ++ ")" ++
    (if is_signed then " İmzalı" else "")

/-- `RowExpander._expand_variant`: always emits `variant_info.denominator`
cards (the `count` argument is ignored for the count). When the denominator
is a text label, Python evaluates `range(1, actual_count + 1)` with
`actual_count` a `str`, raising `TypeError`; this is modelled by
`Except.error`. -/
def expandVariant (player label series group : String) (vi : VariantInfo)
    (count : ℤ) : Except String (List CardLine) :=
  match vi.denominator with
  | .num d =>
    .ok ((List.range d).map (fun i =>
      { text := buildVariantLine player label d (i + 1) vi.is_signed
        player := player
        label := label
        variant_type := vi.display_name
        denominator := d
        number := i + 1
        is_signed := vi.is_signed
        series := series
        group := group }))
  | .text _ => .error ("TypeError")

/-- The per-variant-cell step of `RowExpander._expand_single_row`: gate on a
non-blank cell whose `safe_int` is positive, then expand. -/
def processVariantCell (player label series group : String) (vi : VariantInfo)
    (cell : CellValue) : Except String (List CardLine) :=
  if nonblankGate cell then
    let count := safe_int cell
    if count > 0 then expandVariant player label series group vi count
    else .ok []
  else .ok []

/-- `RowExpander._expand_base`: emits `base_count` cards with
`variant_type = "Base"`, `denominator = base_count`, numbers `1..base_count`. -/
def expandBase (player label series group : String) (base_count : ℤ) :
    List CardLine :=
  (List.range base_count.toNat).map (fun i =>
    { text := player ++ " " ++ label ++ " Base"
      player := player
      label := label
      variant_type := "Base"
      denominator := base_count.toNat
      number := i + 1
      is_signed := false
      series := series
      group := group })

/-- The Base-cell step of `RowExpander._expand_single_row`. -/
def processBaseCell (player label series group : String) (cell : CellValue) :
    List CardLine :=
  if nonblankGate cell then
    let base_count := safe_int cell
    if base_count > 0 then expandBase player label series group base_count
    else []
  else []

/-- `RowExpander._expand_custom_label`: Base-style generation under the
custom label's own name; signed when the label contains `İmzalı`. -/
def expandCustomLabel (player label series group custom_label : String)
    (count : ℤ) : List CardLine :=
  (List.range count.toNat).map (fun i =>
    { text := player ++ " " ++ label ++ " " ++ custom_label
      player := player
      label := label
      variant_type := custom_label
      denominator := count.toNat
      number := i + 1
      is_signed := containsSub custom_label.data ("İmzalı").data
      series := series
      group := group })

/-- The custom-label-cell step of `RowExpander._expand_single_row`. -/
def processCustomCell (player label series group custom_label : String)
    (cell : CellValue) : List CardLine :=
  if nonblankGate cell then
    let count := safe_int cell
    if count > 0 then expandCustomLabel player label series group custom_label count
    else []
  else []

/-! ## Validation (validate.py) -/

/-- A validation issue: errors are blocking (`_add_error` is always called
with its default `blocking=True`), warnings are not. -/
inductive VIssue where
  | err (etype : String)
  | warn (wtype : String)
deriving DecidableEq, Repr

/-- The per-variant-cell part of `ChecklistValidator._validate_numeric_values`.
For a text denominator with a numeric cell value `v ≥ 0`, Python evaluates
`numeric_value > denominator` with an `int` and a `str`, raising `TypeError`
(modelled by `Except.error`). -/
def validateVariantCell (vi : VariantInfo) (cell : CellValue) :
    Except String (List VIssue) :=
  if nonblankGate cell then
    if !is_numeric_value cell then .ok [.err ("Invalid Value")]
    else
      let v := safe_int cell
      if v < 0 then .ok [.err ("Negative Value")]
      else
        match vi.denominator with
        | .num d =>
          if v > (d : ℤ) then .ok [.warn ("Value Exceeds Denominator")]
          else if v < (d : ℤ) ∧ v > 0 then .ok [.warn ("Value Less Than Denominator")]
          else .ok []
        | .text _ => .error ("TypeError")
  else .ok []

/-! ## Duplicate-row merge (expand.py, `RowExpander._merge_duplicate_rows`) -/

/-- A checklist row: the structural cells (player/series/group, read through
`str(...)` so never missing) and the remaining cells keyed by column name. -/
structure MRow where
  player : String
  series : String
  group : String
  cells : List (String × CellValue)
deriving DecidableEq, Repr

/-- Cell of a row for a column name. -/
def getCell (r : MRow) (col : String) : CellValue :=
  ((r.cells.find? (fun p => p.1 = col)).map Prod.snd).getD .blank

/-- `RowExpander._get_label_for_row`: the stripped group when nonempty,
otherwise the stripped series (both columns present). -/
def labelForRow (r : MRow) : String :=
  if pythonStrip r.group ≠ "" then pythonStrip r.group else pythonStrip r.series

/-- The `_grouping_key` of `_merge_duplicate_rows`:
`f"{player}|{label}"` with the player normalized (stripped). -/
def groupKey (r : MRow) : String :=
  pythonStrip r.player ++ "|" ++ labelForRow r

/-- The summing aggregate of `_merge_duplicate_rows`:
`sum(safe_int(val) for val in x if pd.notna(val) and str(val).strip())`. -/
def sumColumn (col : String) (rows : List MRow) : ℤ :=
  (rows.map (fun r =>
    let c := getCell r col
    if nonblankGate c then safe_int c else 0)).sum

/-- The `'first'` aggregate of pandas `groupby.agg`: the first
non-missing value of the group. -/
def firstNonBlank (vals : List CellValue) : CellValue :=
  (vals.find? (fun v => v ≠ .blank)).getD .blank

/-- Merge one group of rows: numeric (variant/Base) columns are summed,
every other column takes the group's first value. -/
def mergeGroup (numericCols : List String) (r0 : MRow) (rest : List MRow) : MRow :=
  { player := r0.player
    series := r0.series
    group := r0.group
    cells := r0.cells.map (fun p =>
      (p.1,
        if numericCols.contains p.1 then
          CellValue.num ((sumColumn p.1 (r0 :: rest) : ℤ) : ℚ)
        else
          firstNonBlank ((r0 :: rest).map (fun r => getCell r p.1)))) }

/-- Deduplication keeping the first occurrence of each key. -/
def dedupFirst : List String → List String
  | [] => []
  | k :: ks => k :: (dedupFirst ks).filter (fun x => x ≠ k)

/-- `RowExpander._merge_duplicate_rows`: group rows by `groupKey`, sum the
numeric (variant/Base) columns within a group and take the first value of
every other column. (The source's `groupby` sorts group keys; no property
here depends on the order of the merged rows, and first-occurrence order is
used.) -/
def mergeDuplicateRows (numericCols : List String) (rows : List MRow) : List MRow :=
  (dedupFirst (rows.map groupKey)).filterMap (fun k =>
    match rows.filter (fun r => groupKey r = k) with
    | [] => none
    | r0 :: rest => some (mergeGroup numericCols r0 rest))

/-! ## Fuzzy similarity (difflib.SequenceMatcher, as used in images.py) -/

/-- Length of the common prefix run of two character lists. -/
def commonRun : List Char → List Char → ℕ
  | a :: ta, b :: tb => if a = b then commonRun ta tb + 1 else 0
  | _, _ => 0

/-- `SequenceMatcher.find_longest_match` over whole sequences (no junk:
the autojunk heuristic only applies to sequences of 200+ elements, far above
token length here): the longest matching block, ties broken by the earliest
start in `a`, then the earliest start in `b`. -/
def flm (a b : List Char) : ℕ × ℕ × ℕ :=
  (List.range a.length).foldl (fun best i =>
    (List.range b.length).foldl (fun best2 j =>
      let k := commonRun (a.drop i) (b.drop j)
      if k > best2.2.2 then (i, j, k) else best2) best) (0, 0, 0)

/-- Total size of the matching blocks of the Ratcliff–Obershelp recursion
(`SequenceMatcher.get_matching_blocks`); the fuel bounds the recursion depth
and `a.length + b.length` always suffices. -/
def matchTotal : ℕ → List Char → List Char → ℕ
  | 0, _, _ => 0
  | fuel + 1, a, b =>
    let t := flm a b
    if t.2.2 = 0 then 0
    else
      matchTotal fuel (a.take t.1) (b.take t.2.1) + t.2.2 +
        matchTotal fuel (a.drop (t.1 + t.2.2)) (b.drop (t.2.1 + t.2.2))

/-- `SequenceMatcher(None, a, b).ratio()`: `2*M / (len(a)+len(b))`, and `1`
when both are empty. -/
def ratio (a b : String) : ℚ :=
  let la := a.length
  let lb := b.length
  if la + lb = 0 then 1
  else mkRat (2 * (matchTotal (la + lb) a.data b.data)) (la + lb)

/-! ## Image matching (images.py, `ImageMatcher._match_single_card`) -/

/-- `CardInfo` from images.py (normalized fields are derived, as in
`__post_init__`). -/
structure CardInfo where
  player : String
  series : String
  group : String
  denominator : ℤ
  is_signed : Bool
  is_base : Bool
deriving DecidableEq, Repr

/-- `CardInfo.player_norm`. -/
def CardInfo.player_norm (c : CardInfo) : String := normalize_for_matching c.player

/-- `CardInfo.series_norm`. -/
def CardInfo.series_norm (c : CardInfo) : String := normalize_for_matching c.series

/-- `CardInfo.group_norm`. -/
def CardInfo.group_norm (c : CardInfo) : String := normalize_for_matching c.group

/-- Python `str.split('_')` on the character list. -/
def splitUndChars : List Char → List (List Char)
  | [] => [[]]
  | '_' :: rest => [] :: splitUndChars rest
  | c :: rest =>
    match splitUndChars rest with
    | [] => [[c]]
    | p :: ps => (c :: p) :: ps

/-- Python `str.split('_')` producing strings. -/
def splitUnd (s : String) : List String :=
  (splitUndChars s.data).map String.mk

/-- `CardInfo.get_all_parts`: underscore-split tokens of the normalized
player, series and group, keeping tokens of length at least 2. -/
def get_all_parts (c : CardInfo) : List String :=
  ((if c.player_norm ≠ "" then splitUnd c.player_norm else []) ++
   (if c.series_norm ≠ "" then splitUnd c.series_norm else []) ++
   (if c.group_norm ≠ "" then splitUnd c.group_norm else [])).filter
    (fun p => p.length ≥ 2)

/-- `FileInfo` from images.py. -/
structure FileInfo where
  original_name : String
  has_date : Bool
  datePrefix : String
  denominator : ℤ
  is_signed : Bool
  is_base : Bool
  all_parts : List String
  content_parts : List String
deriving DecidableEq, Repr

/-- Whether the length difference of two tokens is at most 2 characters
(`len_diff > 2: continue`). -/
def lenDiffLE2 (cp fp : String) : Bool :=
  ((cp.length : ℤ) - (fp.length : ℤ)).natAbs ≤ 2

/-- The `best_similarity` fold of `_match_single_card`: maximum ratio over
file tokens within the 2-character length window, starting from 0. -/
def bestSimilarity (cp : String) (fileParts : List String) : ℚ :=
  fileParts.foldl (fun best fp =>
    if !lenDiffLE2 cp fp then best else max best (ratio cp fp)) 0

/-- Whether a card token is accounted for in the file: exact occurrence, or
best fuzzy similarity at least 0.70. -/
def tokenMatched (cp : String) (fileParts : List String) : Bool :=
  fileParts.contains cp || bestSimilarity cp fileParts ≥ mkRat 70 100

/-- Stage 1 of `_match_single_card`: the three hard rules. -/
def hardPass (card : CardInfo) (f : FileInfo) : Bool :=
  (card.is_signed == f.is_signed) &&
  (card.is_base == f.is_base) &&
  (if !card.is_base && decide (card.denominator > 0)
   then f.denominator == card.denominator else true)

/-- Stage 2 of `_match_single_card`: count matched card tokens, reject when
any is missing, compute `extra` and `score = 100 - extra*15`, and keep the
candidate only when `score ≥ 70`. Returns `(score, extra)`. -/
def stage2 (card_parts : List String) (f : FileInfo) : Option (ℤ × ℤ) :=
  let file_parts := f.content_parts
  let matched_parts := card_parts.countP (fun cp => tokenMatched cp file_parts)
  let missing_parts : ℤ := (card_parts.length : ℤ) - (matched_parts : ℤ)
  let extra_parts : ℤ :=
    if (file_parts.length : ℤ) - (card_parts.length : ℤ) < 0 then 0
    else (file_parts.length : ℤ) - (card_parts.length : ℤ)
  if missing_parts > 0 then none
  else
    let score := 100 - extra_parts * 15
    if score ≥ 70 then some (score, extra_parts) else none

/-- A surviving candidate `(filename, score, extra_parts)`. -/
structure Cand where
  name : String
  score : ℤ
  extra : ℤ
deriving DecidableEq, Repr

/-- The candidate list of `_match_single_card`, in file-pool order. -/
def candidatesFor (card : CardInfo) (files : List FileInfo) : List Cand :=
  files.filterMap (fun f =>
    if hardPass card f then
      (stage2 (get_all_parts card) f).map (fun se => ⟨f.original_name, se.1, se.2⟩)
    else none)

/-- The sort order `key=lambda x: (-x[1], x[2])`: higher score first, then
fewer extra parts. -/
def leCand (x y : Cand) : Bool :=
  decide (y.score < x.score) || (decide (x.score = y.score) && decide (x.extra ≤ y.extra))

/-- Stable insertion: place `x` before the first element `y` with
`le x y` (so an earlier element precedes later ties, as in Python's stable
`list.sort`). -/
def sInsert {α : Type} (le : α → α → Bool) (x : α) : List α → List α
  | [] => [x]
  | y :: ys => if le x y then x :: y :: ys else y :: sInsert le x ys

/-- A stable sort with the same output as Python's stable `list.sort` for a
total preorder `le`. -/
def stableSort {α : Type} (le : α → α → Bool) : List α → List α
  | [] => []
  | x :: xs => sInsert le x (stableSort le xs)

/-- Match outcome status. -/
inductive MatchStatus where
  | found
  | missing
  | conflict
deriving DecidableEq, Repr

/-- `MatchResult` from images.py (diagnostic text omitted). -/
structure MatchResult where
  status : MatchStatus
  matched_file : String := ""
  conflict_files : List String := []
  match_score : ℤ := 0
deriving DecidableEq, Repr

/-- `ImageMatcher._match_single_card`: hard rules, content scoring, stable
sort by `(-score, extra)`, then missing / conflict / found classification. -/
def matchSingleCard (card : CardInfo) (files : List FileInfo) : MatchResult :=
  let cands := candidatesFor card files
  match stableSort leCand cands with
  | [] => { status := .missing }
  | best :: restSorted =>
    let top := (best :: restSorted).filter
      (fun c => c.score == best.score && c.extra == best.extra)
    if top.length > 1 then
      { status := .conflict
        conflict_files := top.map Cand.name
        match_score := best.score }
    else
      { status := .found
        matched_file := best.name
        match_score := best.score }

/-! ## Filename parsing (images.py, `ImageMatcher._parse_filename`) -/

/-- Strip a trailing `.jpg`/`.jpeg`/`.png` extension (the name is already
lowercased). -/
def stripExt (l : List Char) : List Char :=
  if (".jpeg").data.isSuffixOf l then dropRightN l 5
  else if (".jpg").data.isSuffixOf l then dropRightN l 4
  else if (".png").data.isSuffixOf l then dropRightN l 4
  else l

/-- The date-prefix match `^(\d{8})_(.+)$`: eight digits, an underscore, and
a nonempty remainder. Returns (has_date, date_prefix, remaining name). -/
def stripDate (l : List Char) : Bool × String × List Char :=
  let d8 := l.take 8
  let rest := l.drop 8
  if d8.length = 8 && d8.all Char.isDigit then
    match rest with
    | '_' :: tail => if tail ≠ [] then (true, String.mk d8, tail) else (false, "", l)
    | _ => (false, "", l)
  else (false, "", l)

/-- The maximal digit suffix of a name. -/
def digitSuffix (l : List Char) : List Char :=
  (l.reverse.takeWhile Char.isDigit).reverse

/-- The name with its maximal digit suffix removed. -/
def dropDigitSuffix (l : List Char) : List Char :=
  (l.reverse.dropWhile Char.isDigit).reverse

/-- The Base/denominator suffix grammar of `_parse_filename`: first the Base
marker `_base(?:_(\d+))?$` (Base flag, optional digits as denominator), and
only otherwise the plain `_(\d+)$` denominator. Returns
(denominator, is_base, remaining name). -/
def parseStem (name : List Char) : ℕ × Bool × List Char :=
  let ds := digitSuffix name
  let rest := dropDigitSuffix name
  if ds ≠ [] && ("_base_").data.isSuffixOf rest then
    (digitsVal ds, true, dropRightN rest 6)
  else if ("_base").data.isSuffixOf name then
    (0, true, dropRightN name 5)
  else if ds ≠ [] && ['_'].isSuffixOf rest then
    (digitsVal ds, false, dropRightN rest 1)
  else (0, false, name)

/-- `re.sub(r'_s_', '_', name)`: leftmost, non-overlapping replacement; the
scan continues after each match. -/
def removeSMid : List Char → List Char
  | '_' :: 's' :: '_' :: rest => '_' :: removeSMid rest
  | c :: rest => c :: removeSMid rest
  | [] => []

/-- `ImageMatcher._parse_filename`: lowercase (ASCII range), strip the
extension, the optional date prefix, detect the `_s_` signed marker, parse
the Base/denominator suffix, strip signed markers, and split the remainder
into content tokens of length at least 2. -/
def parse_filename (filename : String) : FileInfo :=
  let name0 := (pythonLower filename).data
  let name1 := stripExt name0
  let dres := stripDate name1
  let name2 := dres.2.2
  let is_signed := containsSub ('_' :: (name2 ++ ['_'])) (("_s_").data)
  let pres := parseStem name2
  let name3 := pres.2.2
  let name4a := removeSMid name3
  let name4b := if ("s_").data.isPrefixOf name4a then name4a.drop 2 else name4a
  let name4 := if ("_s").data.isSuffixOf name4b then dropRightN name4b 2 else name4b
  let all_parts := splitUnd (String.mk name4)
  { original_name := filename
    has_date := dres.1
    datePrefix := dres.2.1
    denominator := (pres.1 : ℤ)
    is_signed := is_signed
    is_base := pres.2.1
    all_parts := all_parts
    content_parts := all_parts.filter (fun p => p.length ≥ 2) }

/-! ## Theorems -/

set_option maxRecDepth 20000

/-- Truncation of a natural number cast is the number itself. -/
lemma ratTrunc_natCast (v : ℕ) : ratTrunc ((v : ℕ) : ℚ) = (v : ℤ) := by
  unfold ratTrunc
  rw [if_pos (by positivity)]
  exact Int.floor_natCast v

/-- Truncation of a rational strictly between 0 and 1 is zero. -/
lemma ratTrunc_eq_zero {q : ℚ} (hq0 : 0 < q) (hq1 : q < 1) : ratTrunc q = 0 := by
  unfold ratTrunc
  rw [if_pos hq0.le]
  exact Int.floor_eq_zero_iff.mpr ⟨hq0.le, hq1⟩

/-- Expansion of a numeric-denominator variant cell holding a positive
integer value: exactly the `D` records of `expandVariant`, whatever the
value. -/
lemma processVariantCell_num (player label series group : String)
    (vi : VariantInfo) (D : ℕ) (hD : vi.denominator = .num D) (v : ℕ)
    (hv : 0 < v) :
    processVariantCell player label series group vi (.num (v : ℚ)) =
      .ok ((List.range D).map (fun i =>
        { text := buildVariantLine player label D (i + 1) vi.is_signed
          player := player
          label := label
          variant_type := vi.display_name
          denominator := D
          number := i + 1
          is_signed := vi.is_signed
          series := series
          group := group })) := by
  have hsafe : safe_int (.num ((v : ℕ) : ℚ)) = (v : ℤ) := ratTrunc_natCast v
  have hpos : (0 : ℤ) < (v : ℤ) := Int.ofNat_pos.mpr hv
  unfold processVariantCell
  rw [show nonblankGate (.num ((v : ℕ) : ℚ)) = true from rfl, if_pos rfl, hsafe,
    if_pos (by exact_mod_cast hpos)]
  unfold expandVariant
  rw [hD]

/-- C1: for a variant column with numeric denominator `D` and a cell holding
an integer value `v > 0`, expansion emits exactly `D` card records numbered
`1..D`, each with denominator `D` and the column's signedness, regardless of
`v`; and when `v ≠ D`, validation of that cell yields a warning and no
blocking error. -/
theorem c1_denominator_driven_expansion (player label series group : String)
    (vi : VariantInfo) (D : ℕ) (hD : vi.denominator = .num D) (v : ℕ) (hv : 0 < v) :
    (∃ L, processVariantCell player label series group vi (.num (v : ℚ)) = .ok L ∧
      L.length = D ∧
      (∀ i (hi : i < L.length),
        (L.get ⟨i, hi⟩).number = i + 1 ∧
        (L.get ⟨i, hi⟩).denominator = D ∧
        (L.get ⟨i, hi⟩).is_signed = vi.is_signed ∧
        (L.get ⟨i, hi⟩).variant_type = vi.display_name)) ∧
    (v ≠ D →
      ∃ issues, validateVariantCell vi (.num (v : ℚ)) = .ok issues ∧
        (∃ w, VIssue.warn w ∈ issues) ∧ (∀ e, VIssue.err e ∉ issues)) := by
  have hsafe : safe_int (.num ((v : ℕ) : ℚ)) = (v : ℤ) := ratTrunc_natCast v
  have hgate : nonblankGate (.num ((v : ℕ) : ℚ)) = true := rfl
  have hpos : (0 : ℤ) < (v : ℤ) := Int.ofNat_pos.mpr hv
  constructor
  · refine ⟨(List.range D).map (fun i =>
      { text := buildVariantLine player label D (i + 1) vi.is_signed
        player := player
        label := label
        variant_type := vi.display_name
        denominator := D
        number := i + 1
        is_signed := vi.is_signed
        series := series
        group := group }), ?_, ?_, ?_⟩
    · exact processVariantCell_num player label series group vi D hD v hv
    · simp
    · intro i hi
      have hi2 : i < D := by simpa using hi
      simp [List.get_eq_getElem]
  · intro hne
    have hne2 : (v : ℤ) ≠ (D : ℤ) := fun h => hne (by exact_mod_cast h)
    have hred : validateVariantCell vi (.num ((v : ℕ) : ℚ)) =
        (if (v : ℤ) > (D : ℤ) then Except.ok [VIssue.warn ("Value Exceeds Denominator")]
         else if (v : ℤ) < (D : ℤ) ∧ (v : ℤ) > 0 then
           Except.ok [VIssue.warn ("Value Less Than Denominator")]
         else Except.ok []) := by
      unfold validateVariantCell
      rw [hgate, if_pos rfl]
      rw [show (!is_numeric_value (.num ((v : ℕ) : ℚ))) = false from rfl]
      simp only [Bool.false_eq_true, if_false, hsafe, hD]
      rw [if_neg (show ¬ (v : ℤ) < 0 by omega)]
    rcases lt_or_gt_of_ne hne2 with h | h
    · rw [hred, if_neg (by omega), if_pos ⟨h, hpos⟩]
      exact ⟨[.warn ("Value Less Than Denominator")], rfl, ⟨_, List.mem_singleton_self _⟩,
        by intro e he; simp at he⟩
    · rw [hred, if_pos h]
      exact ⟨[.warn ("Value Exceeds Denominator")], rfl, ⟨_, List.mem_singleton_self _⟩,
        by intro e he; simp at he⟩

/-- C1 witness: the `/5` column with cell value 3. -/
theorem c1_witness :
    ((⟨"/5", .num 5, false, "/5"⟩ : VariantInfo).denominator = .num 5 ∧ 0 < 3) ∧
    ((∃ L, processVariantCell "Okan Buruk" "Mythos" "Mythos" ""
        ⟨"/5", .num 5, false, "/5"⟩ (.num ((3 : ℕ) : ℚ)) = .ok L ∧
      L.length = 5 ∧
      (∀ i (hi : i < L.length),
        (L.get ⟨i, hi⟩).number = i + 1 ∧
        (L.get ⟨i, hi⟩).denominator = 5 ∧
        (L.get ⟨i, hi⟩).is_signed = (⟨"/5", .num 5, false, "/5"⟩ : VariantInfo).is_signed ∧
        (L.get ⟨i, hi⟩).variant_type = (⟨"/5", .num 5, false, "/5"⟩ : VariantInfo).display_name)) ∧
    ((3 : ℕ) ≠ 5 →
      ∃ issues, validateVariantCell ⟨"/5", .num 5, false, "/5"⟩ (.num ((3 : ℕ) : ℚ)) = .ok issues ∧
        (∃ w, VIssue.warn w ∈ issues) ∧ (∀ e, VIssue.err e ∉ issues))) :=
  ⟨⟨rfl, by decide⟩,
    c1_denominator_driven_expansion "Okan Buruk" "Mythos" "Mythos" ""
      ⟨"/5", .num 5, false, "/5"⟩ 5 rfl 3 (by decide)⟩

/-- C7: a named (text) denominator column is classified as a variant with a
string denominator, and expansion of such a variant raises `TypeError`
(`range(1, actual_count + 1)` with `actual_count` a `str`) instead of
emitting the cell-value-determined records; the failing row records an
expansion error and yields zero cards. -/
theorem c7_named_variant_expansion_raises :
    detectVariant ("Short Print") =
      some ⟨"Short Print", .text "Short Print", false, "Short Print"⟩ ∧
    safe_int (.num (mkRat 3 1)) = 3 ∧
    processVariantCell "Okan Buruk" "Mythos" "Mythos" ""
      ⟨"Short Print", .text "Short Print", false, "Short Print"⟩
      (.num (mkRat 3 1)) = .error ("TypeError") ∧
    (∀ (player label series group : String) (vi : VariantInfo) (s : String) (count : ℤ),
      vi.denominator = .text s →
      expandVariant player label series group vi count = .error ("TypeError")) := by
  refine ⟨by decide, by rfl, by rfl, ?_⟩
  intro player label series group vi s count hs
  unfold expandVariant
  rw [hs]

/-- C10: the production gate truncates the cell value: a numeric value
strictly between 0 and 1 gates as 0 and produces no variant, Base or
custom-label records; non-numeric text likewise gates as 0 without an
error. -/
theorem c10_truncation_gate (player label series group cl : String)
    (vi : VariantInfo) (q : ℚ) (hq0 : 0 < q) (hq1 : q < 1) (s : String)
    (hs : parseFloat? s = none) :
    safe_int (.num q) = 0 ∧
    processVariantCell player label series group vi (.num q) = .ok [] ∧
    processBaseCell player label series group (.num q) = [] ∧
    processCustomCell player label series group cl (.num q) = [] ∧
    safe_int (.text s) = 0 ∧
    processVariantCell player label series group vi (.text s) = .ok [] ∧
    processBaseCell player label series group (.text s) = [] ∧
    processCustomCell player label series group cl (.text s) = [] := by
  have h0 : safe_int (.num q) = 0 := ratTrunc_eq_zero hq0 hq1
  have h1 : safe_int (.text s) = 0 := by simp only [safe_int, hs]
  refine ⟨h0, ?_, ?_, ?_, h1, ?_, ?_, ?_⟩
  · unfold processVariantCell; rw [h0]; simp
  · unfold processBaseCell; rw [h0]; simp
  · unfold processCustomCell; rw [h0]; simp
  · unfold processVariantCell; rw [h1]; split <;> simp
  · unfold processBaseCell; rw [h1]; split <;> simp
  · unfold processCustomCell; rw [h1]; split <;> simp

/-- C10 witness: cell value 1/2 and cell text `"abc"`. -/
theorem c10_witness :
    ((0 : ℚ) < mkRat 1 2 ∧ mkRat 1 2 < 1 ∧ parseFloat? "abc" = none) ∧
    (safe_int (.num (mkRat 1 2)) = 0 ∧
    processVariantCell "p" "l" "sr" "g" ⟨"/5", .num 5, false, "/5"⟩ (.num (mkRat 1 2)) = .ok [] ∧
    processBaseCell "p" "l" "sr" "g" (.num (mkRat 1 2)) = [] ∧
    processCustomCell "p" "l" "sr" "g" "Promo!" (.num (mkRat 1 2)) = [] ∧
    safe_int (.text "abc") = 0 ∧
    processVariantCell "p" "l" "sr" "g" ⟨"/5", .num 5, false, "/5"⟩ (.text "abc") = .ok [] ∧
    processBaseCell "p" "l" "sr" "g" (.text "abc") = [] ∧
    processCustomCell "p" "l" "sr" "g" "Promo!" (.text "abc") = []) :=
  ⟨⟨by decide, by decide, by decide⟩,
    c10_truncation_gate "p" "l" "sr" "g" "Promo!" ⟨"/5", .num 5, false, "/5"⟩
      (mkRat 1 2) (by decide) (by decide) "abc" (by decide)⟩

/-- The character-level effect of the source's single replacement regex
equals the composition of the spec's step 3 with the amended step 4. -/
lemma specStep_compose (c : Char) :
    specStepReplace (specStepSpaceHyphen c) = replaceNonAlnum c := by
  by_cases h1 : c = ' '
  · subst h1; decide
  by_cases h2 : c = '-'
  · subst h2; decide
  have hs : specStepSpaceHyphen c = c := by
    unfold specStepSpaceHyphen
    rw [if_neg (by simp [h1, h2])]
  rw [hs]
  by_cases h3 : isLowerAlnum c = true
  · unfold specStepReplace replaceNonAlnum
    simp [h3]
  · by_cases h4 : c = '_'
    · subst h4; decide
    · unfold specStepReplace replaceNonAlnum
      simp [h3, h4]

/-- C8 counterexample: on `"a.b"` the source turns `'.'` into an underscore
separator, while the spec's pipeline (which deletes characters outside
`[a-z0-9_]`) yields `"ab"`. -/
theorem c8_counterexample :
    normalize_for_matching "a.b" = "a_b" ∧ specNormalize "a.b" = "ab" ∧
      ("a_b" : String) ≠ "ab" := by
  refine ⟨by decide, by decide, by decide⟩

/-- C8 amended: `normalize_for_matching` is total and equals the spec's
six-step composition with step 4 amended to replace characters outside
`[a-z0-9_]` with an underscore instead of deleting them. -/
theorem c8_normalize_is_amended_pipeline (s : String) :
    normalize_for_matching s = amendedSpecNormalize s := by
  unfold normalize_for_matching amendedSpecNormalize
  by_cases h : s = ""
  · subst h; rfl
  · rw [if_neg h]
    congr 3
    rw [List.map_map, List.map_map, List.map_map]
    refine List.map_congr_left (fun c _ => ?_)
    simp only [Function.comp]
    rw [specStep_compose]

/-- takeWhile over an all-satisfying prefix stops exactly at a failing
character. -/
lemma takeWhile_append_cons {p : Char → Bool} (l1 : List Char) (c : Char)
    (l2 : List Char) (h1 : ∀ x ∈ l1, p x = true) (hc : p c = false) :
    (l1 ++ c :: l2).takeWhile p = l1 := by
  induction l1 with
  | nil => simp [List.takeWhile_cons, hc]
  | cons a t ih =>
    have ha := h1 a (by simp)
    simp only [List.cons_append, List.takeWhile_cons, ha, if_true]
    rw [ih (fun x hx => h1 x (by simp [hx]))]

/-- dropWhile over an all-satisfying prefix stops exactly at a failing
character. -/
lemma dropWhile_append_cons {p : Char → Bool} (l1 : List Char) (c : Char)
    (l2 : List Char) (h1 : ∀ x ∈ l1, p x = true) (hc : p c = false) :
    (l1 ++ c :: l2).dropWhile p = c :: l2 := by
  induction l1 with
  | nil => simp [List.dropWhile_cons, hc]
  | cons a t ih =>
    have ha := h1 a (by simp)
    simp only [List.cons_append, List.dropWhile_cons, ha, if_true]
    exact ih (fun x hx => h1 x (by simp [hx]))

/-- Dropping the length of an appended suffix recovers the prefix. -/
lemma dropRightN_append (l1 l2 : List Char) : dropRightN (l1 ++ l2) l2.length = l1 := by
  unfold dropRightN
  rw [List.reverse_append, ← List.length_reverse l2, List.drop_left, List.reverse_reverse]

/-- A name splits into its digit-suffix-free part and its digit suffix, and
the digit suffix contains only digits. -/
lemma name_decomp (name : List Char) :
    name = dropDigitSuffix name ++ digitSuffix name ∧
      ∀ c ∈ digitSuffix name, c.isDigit = true := by
  constructor
  · calc name = name.reverse.reverse := (List.reverse_reverse name).symm
    _ = (name.reverse.takeWhile Char.isDigit ++
          name.reverse.dropWhile Char.isDigit).reverse := by
        rw [List.takeWhile_append_dropWhile]
    _ = dropDigitSuffix name ++ digitSuffix name := by
        rw [List.reverse_append]; rfl
  · intro c hc
    unfold digitSuffix at hc
    rw [List.mem_reverse] at hc
    exact List.mem_takeWhile_imp hc

/-- C9 part A: a name ending in `_base` parses as Base with denominator 0
and the `_base` suffix stripped. -/
lemma parseStem_base (pre : List Char) :
    parseStem (pre ++ ("_base").data) = (0, true, pre) := by
  have hds : digitSuffix (pre ++ ("_base").data) = [] := by
    unfold digitSuffix
    rw [List.reverse_append]
    rw [show (("_base").data.reverse ++ pre.reverse) =
      'e' :: (['s', 'a', 'b', '_'] ++ pre.reverse) from rfl]
    simp [List.takeWhile_cons]
  unfold parseStem
  rw [hds]
  rw [if_neg (by simp)]
  rw [if_pos (by
    simp only [List.isSuffixOf_iff_suffix]
    exact List.suffix_append pre (("_base").data))]
  rw [show (5 : ℕ) = (("_base").data).length from rfl, dropRightN_append]

/-- C9 part B: a name ending in `_base_<digits>` parses as Base with the
digits as denominator, the whole suffix stripped; the Base check takes
priority over the plain digit-suffix check. -/
lemma parseStem_base_digits (pre ds : List Char) (hne : ds ≠ [])
    (hd : ∀ c ∈ ds, c.isDigit = true) :
    parseStem (pre ++ ("_base_").data ++ ds) = (digitsVal ds, true, pre) := by
  have hassoc : pre ++ ("_base_").data ++ ds = (pre ++ ("_base_").data) ++ ds :=
    rfl
  have hrev : (pre ++ ("_base_").data ++ ds).reverse =
      ds.reverse ++ '_' :: (['e', 's', 'a', 'b', '_'] ++ pre.reverse) := by
    rw [List.reverse_append, List.reverse_append]
    rfl
  have hdr : ∀ x ∈ ds.reverse, x.isDigit = true := by
    intro x hx
    exact hd x (List.mem_reverse.mp hx)
  have hds : digitSuffix (pre ++ ("_base_").data ++ ds) = ds := by
    unfold digitSuffix
    rw [hrev, takeWhile_append_cons _ _ _ hdr (by decide), List.reverse_reverse]
  have hrest : dropDigitSuffix (pre ++ ("_base_").data ++ ds) = pre ++ ("_base_").data := by
    unfold dropDigitSuffix
    rw [hrev, dropWhile_append_cons _ _ _ hdr (by decide)]
    rw [show ('_' :: (['e', 's', 'a', 'b', '_'] ++ pre.reverse)) =
      (pre ++ ("_base_").data).reverse from by rw [List.reverse_append]; rfl]
    rw [List.reverse_reverse]
  unfold parseStem
  rw [hds, hrest]
  rw [if_pos]
  · rw [show (6 : ℕ) = (("_base_").data).length from rfl, dropRightN_append]
  · rw [Bool.and_eq_true]
    refine ⟨by simp [hne], ?_⟩
    simp only [List.isSuffixOf_iff_suffix]
    exact List.suffix_append pre (("_base_").data)

/-- C9 part C: with no Base marker and no trailing `_<digits>` suffix, the
parse yields denominator 0 and `is_base = false`. -/
lemma parseStem_neither (name : List Char)
    (h1 : ¬ ∃ pre, name = pre ++ ("_base").data)
    (h2 : ¬ ∃ pre ds, ds ≠ [] ∧ (∀ c ∈ ds, c.isDigit = true) ∧
      name = pre ++ ("_base_").data ++ ds)
    (h3 : ¬ ∃ pre ds, ds ≠ [] ∧ (∀ c ∈ ds, c.isDigit = true) ∧
      name = pre ++ ['_'] ++ ds) :
    parseStem name = (0, false, name) := by
  obtain ⟨hsplit, hdig⟩ := name_decomp name
  unfold parseStem
  rw [if_neg, if_neg, if_neg]
  · simp only [Bool.and_eq_true, List.isSuffixOf_iff_suffix]
    rintro ⟨hne, t, ht⟩
    refine h3 ⟨t, digitSuffix name, by simpa using hne, hdig, ?_⟩
    rw [ht]
    exact hsplit
  · simp only [List.isSuffixOf_iff_suffix]
    rintro ⟨t, ht⟩
    exact h1 ⟨t, ht.symm⟩
  · simp only [Bool.and_eq_true, List.isSuffixOf_iff_suffix]
    rintro ⟨hne, t, ht⟩
    refine h2 ⟨t, digitSuffix name, by simpa using hne, hdig, ?_⟩
    rw [ht]
    exact hsplit

/-- C9: the Base-marker suffix grammar of `_parse_filename`: a trailing
`_base` or `_base_<digits>` sets `is_base = true` with the digits (if any)
as the denominator, taking priority over the plain trailing-digits
denominator; with neither marker the parse yields denominator 0 and
`is_base = false`; and `parse_filename` takes its denominator and Base flag
from this grammar applied after lowercasing, extension stripping and date
removal. -/
theorem c9_filename_suffix_grammar :
    (∀ pre : List Char, parseStem (pre ++ ("_base").data) = (0, true, pre)) ∧
    (∀ pre ds : List Char, ds ≠ [] → (∀ c ∈ ds, c.isDigit = true) →
      parseStem (pre ++ ("_base_").data ++ ds) = (digitsVal ds, true, pre)) ∧
    (∀ name : List Char,
      (¬ ∃ pre, name = pre ++ ("_base").data) →
      (¬ ∃ pre ds, ds ≠ [] ∧ (∀ c ∈ ds, c.isDigit = true) ∧
        name = pre ++ ("_base_").data ++ ds) →
      (¬ ∃ pre ds, ds ≠ [] ∧ (∀ c ∈ ds, c.isDigit = true) ∧
        name = pre ++ ['_'] ++ ds) →
      parseStem name = (0, false, name)) ∧
    (∀ fn : String,
      (parse_filename fn).denominator =
        ((parseStem (stripDate (stripExt (pythonLower fn).data)).2.2).1 : ℤ) ∧
      (parse_filename fn).is_base =
        (parseStem (stripDate (stripExt (pythonLower fn).data)).2.2).2.1) :=
  ⟨parseStem_base, parseStem_base_digits, parseStem_neither, fun _ => ⟨rfl, rfl⟩⟩

/-- C9 witness: `x_base`, `x_base_12`, and a plain `abc` stem, plus a full
filename parse. -/
theorem c9_witness :
    parseStem (("x").data ++ ("_base").data) = (0, true, ("x").data) ∧
    parseStem (("x").data ++ ("_base_").data ++ ("12").data) = (12, true, ("x").data) ∧
    parseStem (("abc").data) = (0, false, ("abc").data) ∧
    (parse_filename "x_base_12.jpg").denominator =
      ((parseStem (stripDate (stripExt (pythonLower "x_base_12.jpg").data)).2.2).1 : ℤ) := by
  refine ⟨c9_filename_suffix_grammar.1 (("x").data),
    c9_filename_suffix_grammar.2.1 (("x").data) (("12").data) (by decide) (by decide),
    c9_filename_suffix_grammar.2.2.1 (("abc").data) ?_ ?_ ?_,
    (c9_filename_suffix_grammar.2.2.2 "x_base_12.jpg").1⟩
  · rintro ⟨pre, hp⟩
    have := congrArg List.length hp
    simp at this
  · rintro ⟨pre, ds, hne, hd, hp⟩
    have := congrArg List.length hp
    have hds : 1 ≤ ds.length := by
      cases ds with
      | nil => exact absurd rfl hne
      | cons a t => simp
    simp at this
    omega
  · rintro ⟨pre, ds, hne, hd, hp⟩
    have : '_' ∈ ("abc").data := by
      rw [hp]
      simp
    exact absurd this (by decide)

/-- A cell that holds a number is found in the row's column list. -/
lemma getCell_num_find (r : MRow) (col : String) (q : ℚ)
    (h : getCell r col = .num q) :
    ∃ e, r.cells.find? (fun p => p.1 = col) = some e ∧ e.2 = .num q := by
  unfold getCell at h
  cases hf : r.cells.find? (fun p => p.1 = col) with
  | none => rw [hf] at h; simp at h
  | some e =>
    rw [hf] at h
    simp at h
    exact ⟨e, rfl, h⟩

/-- find? by key commutes with a key-preserving value map. -/
lemma find?_map_fst {β : Type} (l : List (String × β)) (f : String × β → β)
    (col : String) :
    (l.map (fun p => (p.1, f p))).find? (fun p => p.1 = col) =
      (l.find? (fun p => p.1 = col)).map (fun p => (p.1, f p)) := by
  induction l with
  | nil => rfl
  | cons a t ih =>
    simp only [List.map_cons, List.find?_cons]
    by_cases h : a.1 = col
    · simp [h]
    · simp [h, ih]

/-- The merged row's cell for a column present in the first row: the sum for
numeric columns, the first non-missing value otherwise. -/
lemma getCell_mergeGroup (cols : List String) (r0 : MRow) (rest : List MRow)
    (col : String) (e : String × CellValue)
    (he : r0.cells.find? (fun p => p.1 = col) = some e) :
    getCell (mergeGroup cols r0 rest) col =
      (if cols.contains col then
        CellValue.num ((sumColumn col (r0 :: rest) : ℤ) : ℚ)
       else firstNonBlank ((r0 :: rest).map (fun r => getCell r col))) := by
  have hcol : e.1 = col := by
    have := List.find?_some he
    simpa using this
  have hstep : getCell (mergeGroup cols r0 rest) col =
      (((r0.cells.find? (fun p => p.1 = col)).map (fun p =>
        (p.1,
          if cols.contains p.1 then
            CellValue.num ((sumColumn p.1 (r0 :: rest) : ℤ) : ℚ)
          else
            firstNonBlank ((r0 :: rest).map (fun r => getCell r p.1))))).map
        Prod.snd).getD .blank := by
    unfold getCell mergeGroup
    rw [find?_map_fst]
    rfl
  rw [hstep, he]
  subst hcol
  simp

/-- The sum aggregate over a two-row group with numeric cells. -/
lemma sumColumn_pair (col : String) (r1 r2 : MRow) (q1 q2 : ℚ)
    (h1 : getCell r1 col = .num q1) (h2 : getCell r2 col = .num q2) :
    sumColumn col [r1, r2] = ratTrunc q1 + ratTrunc q2 := by
  unfold sumColumn
  rw [show [r1, r2].map (fun r =>
      let c := getCell r col
      if nonblankGate c then safe_int c else 0) =
    [if nonblankGate (getCell r1 col) then safe_int (getCell r1 col) else 0,
     if nonblankGate (getCell r2 col) then safe_int (getCell r2 col) else 0] from rfl]
  rw [h1, h2]
  simp [nonblankGate, safe_int]

/-- Two rows with the same grouping key merge into a single row. -/
lemma mergeDuplicateRows_pair (cols : List String) (r1 r2 : MRow)
    (hkey : groupKey r1 = groupKey r2) :
    mergeDuplicateRows cols [r1, r2] = [mergeGroup cols r1 [r2]] := by
  unfold mergeDuplicateRows
  rw [show [r1, r2].map groupKey = [groupKey r1, groupKey r2] from rfl]
  rw [← hkey]
  rw [show dedupFirst [groupKey r1, groupKey r1] = [groupKey r1] from by
    simp [dedupFirst]]
  simp only [List.filterMap_cons, List.filterMap_nil]
  rw [show [r1, r2].filter (fun r => groupKey r = groupKey r1) = [r1, r2] from by
    simp [List.filter, hkey.symm]]

/-- C6 (amended): rows are grouped by (normalized player, label); within a
group, variant/Base numeric columns are summed while every other column
(custom labels included) takes the group's first value; the merged `/5`
cell of two rows with values 2 and 3 is 5 and that variant expands to
exactly 5 records. -/
theorem c6_merge_amended (cols : List String) (r1 r2 : MRow)
    (hkey : groupKey r1 = groupKey r2) :
    mergeDuplicateRows cols [r1, r2] = [mergeGroup cols r1 [r2]] ∧
    (∀ col q1 q2, getCell r1 col = .num q1 → getCell r2 col = .num q2 →
      ((cols.contains col = true →
        getCell (mergeGroup cols r1 [r2]) col =
          .num ((ratTrunc q1 + ratTrunc q2 : ℤ) : ℚ)) ∧
       (cols.contains col = false →
        getCell (mergeGroup cols r1 [r2]) col = .num q1))) ∧
    (∀ (player label series group : String) (vi : VariantInfo) col,
      vi.denominator = .num 5 → cols.contains col = true →
      getCell r1 col = .num ((2 : ℕ) : ℚ) → getCell r2 col = .num ((3 : ℕ) : ℚ) →
      ∃ L, processVariantCell player label series group vi
        (getCell (mergeGroup cols r1 [r2]) col) = .ok L ∧ L.length = 5) := by
  have hmain : ∀ col q1 q2, getCell r1 col = .num q1 → getCell r2 col = .num q2 →
      ((cols.contains col = true →
        getCell (mergeGroup cols r1 [r2]) col =
          .num ((ratTrunc q1 + ratTrunc q2 : ℤ) : ℚ)) ∧
       (cols.contains col = false →
        getCell (mergeGroup cols r1 [r2]) col = .num q1)) := by
    intro col q1 q2 h1 h2
    obtain ⟨e, he, -⟩ := getCell_num_find r1 col q1 h1
    have hg := getCell_mergeGroup cols r1 [r2] col e he
    constructor
    · intro hc
      rw [hg, if_pos hc, sumColumn_pair col r1 r2 q1 q2 h1 h2]
    · intro hc
      rw [hg, if_neg (by rw [hc]; simp)]
      unfold firstNonBlank
      rw [show [r1, r2].map (fun r => getCell r col) =
        [getCell r1 col, getCell r2 col] from rfl]
      rw [h1]
      simp [List.find?]
  refine ⟨mergeDuplicateRows_pair cols r1 r2 hkey, hmain, ?_⟩
  intro player label series group vi col hD hc h1 h2
  have hm := (hmain col _ _ h1 h2).1 hc
  rw [ratTrunc_natCast, ratTrunc_natCast] at hm
  have hm5 : getCell (mergeGroup cols r1 [r2]) col = .num ((5 : ℕ) : ℚ) := by
    rw [hm]
    norm_num
  rw [hm5, processVariantCell_num player label series group vi 5 hD 5 (by decide)]
  exact ⟨_, rfl, by simp⟩

/-- C6 counterexample: a custom-label column (here `"2023"`, which is not a
variant) is not in the numeric-column set, so two same-key rows with values
2 and 3 merge to the first value 2, not the sum 5 — while the Base column
is summed. -/
theorem c6_counterexample :
    numericColumns ["Seri Adı", "Oyuncu Adı", "Base", "2023"] = ["Base"] ∧
    isCustomLabel ("2023") = true ∧
    (mergeDuplicateRows (numericColumns ["Seri Adı", "Oyuncu Adı", "Base", "2023"])
      [⟨"A", "S", "", [("Base", .num 1), ("2023", .num 2)]⟩,
       ⟨"A", "S", "", [("Base", .num 1), ("2023", .num 3)]⟩]).map
      (fun m => (getCell m ("2023"), getCell m ("Base"))) =
      [(CellValue.num 2, CellValue.num 2)] :=
  ⟨by decide, by decide, by decide⟩

/-- C6 witness: rows (player `A`, series `S`) with `/5` values 2 and 3. -/
theorem c6_witness :
    groupKey ⟨"A", "S", "", [("/5", .num ((2 : ℕ) : ℚ))]⟩ =
      groupKey ⟨"A", "S", "", [("/5", .num ((3 : ℕ) : ℚ))]⟩ ∧
    mergeDuplicateRows ["/5"]
        [⟨"A", "S", "", [("/5", .num ((2 : ℕ) : ℚ))]⟩,
         ⟨"A", "S", "", [("/5", .num ((3 : ℕ) : ℚ))]⟩] =
      [mergeGroup ["/5"] ⟨"A", "S", "", [("/5", .num ((2 : ℕ) : ℚ))]⟩
        [⟨"A", "S", "", [("/5", .num ((3 : ℕ) : ℚ))]⟩]] ∧
    (∃ L, processVariantCell "A" "S" "S" "" ⟨"/5", .num 5, false, "/5"⟩
      (getCell (mergeGroup ["/5"] ⟨"A", "S", "", [("/5", .num ((2 : ℕ) : ℚ))]⟩
        [⟨"A", "S", "", [("/5", .num ((3 : ℕ) : ℚ))]⟩]) ("/5")) = .ok L ∧
      L.length = 5) := by
  have h := c6_merge_amended ["/5"]
    ⟨"A", "S", "", [("/5", .num ((2 : ℕ) : ℚ))]⟩
    ⟨"A", "S", "", [("/5", .num ((3 : ℕ) : ℚ))]⟩ (by decide)
  exact ⟨by decide, h.1,
    h.2.2 "A" "S" "S" "" ⟨"/5", .num 5, false, "/5"⟩ ("/5") rfl (by decide)
      (by decide) (by decide)⟩

/-! ### Sorting and candidate lemmas -/

/-- Insertion produces a permutation. -/
lemma sInsert_perm {α : Type} (le : α → α → Bool) (x : α) (l : List α) :
    List.Perm (sInsert le x l) (x :: l) := by
  induction l with
  | nil => rfl
  | cons y ys ih =>
    unfold sInsert
    by_cases h : le x y
    · rw [if_pos h]
    · rw [if_neg h]
      exact (ih.cons y).trans (List.Perm.swap x y ys)

/-- The stable sort is a permutation of its input. -/
lemma stableSort_perm {α : Type} (le : α → α → Bool) (l : List α) :
    List.Perm (stableSort le l) l := by
  induction l with
  | nil => rfl
  | cons x xs ih => exact (sInsert_perm le x (stableSort le xs)).trans (ih.cons x)

/-- Insertion into a sorted list stays sorted for a total transitive order. -/
lemma sInsert_pairwise {α : Type} (le : α → α → Bool)
    (htrans : ∀ a b c, le a b = true → le b c = true → le a c = true)
    (htotal : ∀ a b, le a b = true ∨ le b a = true) (x : α) (l : List α)
    (h : l.Pairwise (fun a b => le a b = true)) :
    (sInsert le x l).Pairwise (fun a b => le a b = true) := by
  induction l with
  | nil => simp [sInsert]
  | cons y ys ih =>
    rw [List.pairwise_cons] at h
    unfold sInsert
    by_cases hxy : le x y
    · rw [if_pos hxy]
      refine List.Pairwise.cons ?_ (List.Pairwise.cons h.1 h.2)
      intro b hb
      rcases List.mem_cons.mp hb with hb | hb
      · rw [hb]; exact hxy
      · exact htrans x y b hxy (h.1 b hb)
    · rw [if_neg hxy]
      refine List.Pairwise.cons ?_ (ih h.2)
      intro b hb
      have hmem := (sInsert_perm le x ys).mem_iff.mp hb
      rcases List.mem_cons.mp hmem with hb2 | hb2
      · rw [hb2]
        rcases htotal x y with hc | hc
        · exact absurd hc hxy
        · exact hc
      · exact h.1 b hb2

/-- The stable sort is sorted for a total transitive order. -/
lemma stableSort_pairwise {α : Type} (le : α → α → Bool)
    (htrans : ∀ a b c, le a b = true → le b c = true → le a c = true)
    (htotal : ∀ a b, le a b = true ∨ le b a = true) (l : List α) :
    (stableSort le l).Pairwise (fun a b => le a b = true) := by
  induction l with
  | nil => simp [stableSort]
  | cons x xs ih => exact sInsert_pairwise le htrans htotal x _ ih

/-- The candidate order is transitive. -/
lemma leCand_trans (a b c : Cand) (h1 : leCand a b = true) (h2 : leCand b c = true) :
    leCand a c = true := by
  simp only [leCand, Bool.or_eq_true, Bool.and_eq_true, decide_eq_true_eq] at *
  omega

/-- The candidate order is total. -/
lemma leCand_total (a b : Cand) : leCand a b = true ∨ leCand b a = true := by
  simp only [leCand, Bool.or_eq_true, Bool.and_eq_true, decide_eq_true_eq]
  omega

/-- The candidate order is reflexive. -/
lemma leCand_refl (a : Cand) : leCand a a = true := by
  simp [leCand]

/-- Higher in the candidate order means a score at least as large. -/
lemma leCand_score {a b : Cand} (h : leCand a b = true) : b.score ≤ a.score := by
  simp only [leCand, Bool.or_eq_true, Bool.and_eq_true, decide_eq_true_eq] at h
  omega

/-- Membership in the candidate list, in terms of the pool. -/
lemma cand_spec (card : CardInfo) (files : List FileInfo) (c : Cand) :
    c ∈ candidatesFor card files ↔
      ∃ f ∈ files, f.original_name = c.name ∧ hardPass card f = true ∧
        stage2 (get_all_parts card) f = some (c.score, c.extra) := by
  unfold candidatesFor
  rw [List.mem_filterMap]
  constructor
  · rintro ⟨f, hf, hsome⟩
    by_cases hh : hardPass card f
    · rw [if_pos hh] at hsome
      cases hs : stage2 (get_all_parts card) f with
      | none => rw [hs] at hsome; simp at hsome
      | some se =>
        rw [hs] at hsome
        simp only [Option.map_some'] at hsome
        have hc := Option.some_inj.mp hsome
        subst hc
        exact ⟨f, hf, rfl, hh, hs⟩
    · rw [if_neg hh] at hsome
      simp at hsome
  · rintro ⟨f, hf, hname, hh, hs⟩
    refine ⟨f, hf, ?_⟩
    rw [if_pos hh, hs]
    simp only [Option.map_some']
    cases c
    simp_all

/-- Every produced candidate's score is `100 − 15·extra` with score at
least 70. -/
lemma stage2_some_spec {parts : List String} {f : FileInfo} {s e : ℤ}
    (h : stage2 parts f = some (s, e)) :
    s = 100 - e * 15 ∧ 70 ≤ s ∧ 0 ≤ e := by
  unfold stage2 at h
  by_cases hm : ((parts.length : ℤ) - (parts.countP (fun cp => tokenMatched cp f.content_parts) : ℤ)) > 0
  · rw [if_pos hm] at h
    simp at h
  · rw [if_neg hm] at h
    by_cases hs : (100 : ℤ) -
        (if (f.content_parts.length : ℤ) - (parts.length : ℤ) < 0 then 0
         else (f.content_parts.length : ℤ) - (parts.length : ℤ)) * 15 ≥ 70
    · rw [if_pos hs] at h
      simp only [Option.some_inj, Prod.mk.injEq] at h
      obtain ⟨hs1, he1⟩ := h
      subst hs1
      subst he1
      refine ⟨rfl, hs, ?_⟩
      split <;> omega
    · rw [if_neg hs] at h
      simp at h

/-- The score of every candidate determines its extra-part count. -/
lemma cand_score_extra {card : CardInfo} {files : List FileInfo} {c : Cand}
    (h : c ∈ candidatesFor card files) : c.score = 100 - c.extra * 15 := by
  obtain ⟨f, -, -, -, hs⟩ := (cand_spec card files c).mp h
  exact (stage2_some_spec hs).1

/-- Candidate names form a sublist of the pool's filenames. -/
lemma cands_names_sublist (card : CardInfo) (files : List FileInfo) :
    ((candidatesFor card files).map Cand.name).Sublist
      (files.map FileInfo.original_name) := by
  induction files with
  | nil => simp [candidatesFor]
  | cons f fs ih =>
    unfold candidatesFor
    rw [List.filterMap_cons]
    unfold candidatesFor at ih
    cases hg : (if hardPass card f then
        (stage2 (get_all_parts card) f).map
          (fun se => (⟨f.original_name, se.1, se.2⟩ : Cand)) else none) with
    | none =>
      simp only [List.map_cons]
      exact ih.cons f.original_name
    | some c =>
      have hn : c.name = f.original_name := by
        by_cases hh : hardPass card f
        · rw [if_pos hh] at hg
          cases hs : stage2 (get_all_parts card) f with
          | none => rw [hs] at hg; simp at hg
          | some se =>
            rw [hs] at hg
            simp only [Option.map_some', Option.some_inj] at hg
            rw [← hg]
        · rw [if_neg hh] at hg
          simp at hg
      simp only [List.map_cons, ← hn]
      exact ih.cons₂ c.name

/-- With distinct pool filenames, the candidate list has no duplicates. -/
lemma cands_nodup {card : CardInfo} {files : List FileInfo}
    (hnodup : (files.map FileInfo.original_name).Nodup) :
    (candidatesFor card files).Nodup :=
  List.Nodup.of_map Cand.name (hnodup.sublist (cands_names_sublist card files))

/-- A rejected file contributes no candidate named after it (given distinct
pool filenames). -/
lemma no_cand_of_rejected {card : CardInfo} {files : List FileInfo} {f : FileInfo}
    (hnodup : (files.map FileInfo.original_name).Nodup) (hmem : f ∈ files)
    (hrej : hardPass card f = false ∨ stage2 (get_all_parts card) f = none) :
    ∀ c ∈ candidatesFor card files, c.name ≠ f.original_name := by
  intro c hc heq
  obtain ⟨g, hg, hgname, hgh, hgs⟩ := (cand_spec card files c).mp hc
  have hgf : g = f :=
    List.inj_on_of_nodup_map hnodup hg hmem (by rw [hgname, heq])
  subst hgf
  rcases hrej with hr | hr
  · rw [hgh] at hr; cases hr
  · rw [hgs] at hr; cases hr

/-- A candidate achieving the maximum score of the candidate list. -/
def IsTopCand (cands : List Cand) (c : Cand) : Prop :=
  c ∈ cands ∧ ∀ c2 ∈ cands, c2.score ≤ c.score

/-- Two distinct elements satisfying a predicate force a count of at
least 2. -/
lemma two_le_countP {p : Cand → Bool} {l : List Cand} {a b : Cand}
    (ha : a ∈ l) (hpa : p a = true) (hb : b ∈ l) (hpb : p b = true)
    (hab : a ≠ b) : 2 ≤ l.countP p := by
  rw [List.countP_eq_length_filter]
  have ha2 : a ∈ l.filter p := List.mem_filter.mpr ⟨ha, hpa⟩
  have hb2 : b ∈ l.filter p := List.mem_filter.mpr ⟨hb, hpb⟩
  cases hf : l.filter p with
  | nil => rw [hf] at ha2; cases ha2
  | cons x t =>
    cases t with
    | nil =>
      rw [hf] at ha2 hb2
      simp at ha2 hb2
      exact absurd (ha2.trans hb2.symm) hab
    | cons y t2 => simp

/-- A count above 1 over a duplicate-free list yields two distinct
satisfying elements. -/
lemma exists_pair_of_one_lt_countP {p : Cand → Bool} {l : List Cand}
    (hl : l.Nodup) (h : 1 < l.countP p) :
    ∃ a b, a ∈ l ∧ b ∈ l ∧ p a = true ∧ p b = true ∧ a ≠ b := by
  rw [List.countP_eq_length_filter] at h
  cases hf : l.filter p with
  | nil => rw [hf] at h; simp at h
  | cons x t =>
    cases t with
    | nil => rw [hf] at h; simp at h
    | cons y t2 =>
      have hxf : x ∈ l.filter p := by rw [hf]; simp
      have hyf : y ∈ l.filter p := by rw [hf]; simp
      have hnd := hl.filter p
      rw [hf] at hnd
      have hxy : x ≠ y := by
        rw [List.nodup_cons] at hnd
        intro he
        exact hnd.1 (by rw [he]; simp)
      exact ⟨x, y, (List.mem_filter.mp hxf).1, (List.mem_filter.mp hyf).1,
        (List.mem_filter.mp hxf).2, (List.mem_filter.mp hyf).2, hxy⟩

/-- The head of the sorted candidate list is a candidate and bounds every
candidate's score. -/
lemma sorted_head_max {card : CardInfo} {files : List FileInfo}
    {best : Cand} {rest : List Cand}
    (hsort : stableSort leCand (candidatesFor card files) = best :: rest) :
    best ∈ candidatesFor card files ∧
      ∀ c ∈ candidatesFor card files, c.score ≤ best.score := by
  have hperm := stableSort_perm leCand (candidatesFor card files)
  rw [hsort] at hperm
  have hmemb : best ∈ candidatesFor card files :=
    hperm.mem_iff.mp (List.mem_cons_self best rest)
  refine ⟨hmemb, ?_⟩
  intro c hc
  have hcs : c ∈ best :: rest := hperm.mem_iff.mpr hc
  rcases List.mem_cons.mp hcs with h | h
  · rw [h]
  · have hpw := stableSort_pairwise leCand leCand_trans leCand_total
      (candidatesFor card files)
    rw [hsort, List.pairwise_cons] at hpw
    exact leCand_score (hpw.1 c h)

/-- Membership of the tied-top filter, in candidate terms. -/
lemma top_mem_iff {card : CardInfo} {files : List FileInfo}
    {best : Cand} {rest : List Cand}
    (hsort : stableSort leCand (candidatesFor card files) = best :: rest)
    (c : Cand) :
    c ∈ (best :: rest).filter
        (fun c => c.score == best.score && c.extra == best.extra) ↔
      (c ∈ candidatesFor card files ∧ c.score = best.score) := by
  have hperm := stableSort_perm leCand (candidatesFor card files)
  rw [hsort] at hperm
  have hmemb := (sorted_head_max hsort).1
  rw [List.mem_filter]
  constructor
  · rintro ⟨hmem, hp⟩
    rw [Bool.and_eq_true, beq_iff_eq, beq_iff_eq] at hp
    exact ⟨hperm.mem_iff.mp hmem, hp.1⟩
  · rintro ⟨hmem, hsc⟩
    refine ⟨hperm.mem_iff.mpr hmem, ?_⟩
    rw [Bool.and_eq_true, beq_iff_eq, beq_iff_eq]
    refine ⟨hsc, ?_⟩
    have h1 := cand_score_extra hmem
    have h2 := cand_score_extra hmemb
    omega

/-- `IsTopCand` is exactly achieving the sorted head's score. -/
lemma isTopCand_iff {card : CardInfo} {files : List FileInfo}
    {best : Cand} {rest : List Cand}
    (hsort : stableSort leCand (candidatesFor card files) = best :: rest)
    (c : Cand) :
    IsTopCand (candidatesFor card files) c ↔
      (c ∈ candidatesFor card files ∧ c.score = best.score) := by
  obtain ⟨hmemb, hmax⟩ := sorted_head_max hsort
  constructor
  · rintro ⟨hmem, htop⟩
    exact ⟨hmem, le_antisymm (hmax c hmem) (htop best hmemb)⟩
  · rintro ⟨hmem, hsc⟩
    refine ⟨hmem, ?_⟩
    intro c2 hc2
    rw [hsc]
    exact hmax c2 hc2

/-- The match result in the nonempty case, expressed on the sorted list. -/
lemma matchSingleCard_eq_of_sorted {card : CardInfo} {files : List FileInfo}
    {best : Cand} {rest : List Cand}
    (hsort : stableSort leCand (candidatesFor card files) = best :: rest) :
    matchSingleCard card files =
      (if ((best :: rest).filter
            (fun c => c.score == best.score && c.extra == best.extra)).length > 1
       then { status := .conflict
              conflict_files := ((best :: rest).filter
                (fun c => c.score == best.score && c.extra == best.extra)).map Cand.name
              match_score := best.score }
       else { status := .found
              matched_file := best.name
              match_score := best.score }) := by
  simp only [matchSingleCard]
  rw [hsort]

/-- C2 (amended): `found` exactly when a single candidate (a file passing
both the hard rules and content scoring) achieves the strictly-highest
score, with `matchedFile` that file; `conflict` exactly when two or more
candidates tie for the top score, `conflictFiles` listing exactly the tied
filenames; and `missing` exactly when the candidate list — survivors of
hard rules AND content scoring — is empty. -/
theorem c2_match_classification (card : CardInfo) (files : List FileInfo)
    (hnodup : (files.map FileInfo.original_name).Nodup) :
    ((matchSingleCard card files).status = .missing ↔
      candidatesFor card files = []) ∧
    ((matchSingleCard card files).status = .found ↔
      ∃ c, IsTopCand (candidatesFor card files) c ∧
        (∀ c2, IsTopCand (candidatesFor card files) c2 → c2 = c) ∧
        (matchSingleCard card files).matched_file = c.name ∧
        (matchSingleCard card files).match_score = c.score) ∧
    ((matchSingleCard card files).status = .conflict ↔
      ∃ c c2, IsTopCand (candidatesFor card files) c ∧
        IsTopCand (candidatesFor card files) c2 ∧ c ≠ c2) ∧
    ((matchSingleCard card files).status = .conflict →
      ∀ fn, fn ∈ (matchSingleCard card files).conflict_files ↔
        ∃ c, IsTopCand (candidatesFor card files) c ∧ c.name = fn) := by
  cases hsort : stableSort leCand (candidatesFor card files) with
  | nil =>
    have hperm := stableSort_perm leCand (candidatesFor card files)
    rw [hsort] at hperm
    have hnil : candidatesFor card files = [] := hperm.symm.eq_nil
    have hr : matchSingleCard card files = { status := .missing } := by
      simp only [matchSingleCard]
      rw [hsort]
    rw [hr, hnil]
    refine ⟨by simp, ?_, ?_, by intro h; cases h⟩
    · constructor
      · intro h; cases h
      · rintro ⟨c, ⟨hc, -⟩, -⟩; cases hc
    · constructor
      · intro h; cases h
      · rintro ⟨c, c2, ⟨hc, -⟩, -⟩; cases hc
  | cons best rest =>
    obtain ⟨hmemb, hmax⟩ := sorted_head_max hsort
    have hr := matchSingleCard_eq_of_sorted hsort
    have hKlen : ((best :: rest).filter
        (fun c => c.score == best.score && c.extra == best.extra)).length =
        (candidatesFor card files).countP
          (fun c => c.score == best.score && c.extra == best.extra) := by
      rw [← List.countP_eq_length_filter]
      have hperm := stableSort_perm leCand (candidatesFor card files)
      rw [hsort] at hperm
      exact hperm.countP_eq _
    have hprop : ∀ c ∈ candidatesFor card files,
        ((c.score == best.score && c.extra == best.extra) = true ↔
          c.score = best.score) := by
      intro c hc
      rw [Bool.and_eq_true, beq_iff_eq, beq_iff_eq]
      have h1 := cand_score_extra hc
      have h2 := cand_score_extra hmemb
      constructor
      · rintro ⟨h, -⟩; exact h
      · intro h; exact ⟨h, by omega⟩
    have hKpos : 1 ≤ (candidatesFor card files).countP
        (fun c => c.score == best.score && c.extra == best.extra) := by
      rw [List.countP_eq_length_filter]
      have : best ∈ (candidatesFor card files).filter
          (fun c => c.score == best.score && c.extra == best.extra) :=
        List.mem_filter.mpr ⟨hmemb, by simp⟩
      exact List.length_pos.mpr (fun h => by rw [h] at this; cases this)
    by_cases htop : ((best :: rest).filter
        (fun c => c.score == best.score && c.extra == best.extra)).length > 1
    · -- conflict case
      have hrc : matchSingleCard card files =
          { status := .conflict
            conflict_files := ((best :: rest).filter
              (fun c => c.score == best.score && c.extra == best.extra)).map Cand.name
            match_score := best.score } := by rw [hr, if_pos htop]
      have hpair : ∃ a b, a ∈ candidatesFor card files ∧
          b ∈ candidatesFor card files ∧
          (a.score == best.score && a.extra == best.extra) = true ∧
          (b.score == best.score && b.extra == best.extra) = true ∧ a ≠ b := by
        refine exists_pair_of_one_lt_countP (cands_nodup hnodup) ?_
        rw [← hKlen]
        exact htop
      rw [hrc]
      refine ⟨?_, ?_, ?_, ?_⟩
      · constructor
        · intro h; simp at h
        · intro h; rw [h] at hmemb; simp at hmemb
      · constructor
        · intro h; simp at h
        · rintro ⟨c, hc, huniq, -⟩
          obtain ⟨a, b, ha, hb, hpa, hpb, hab⟩ := hpair
          have hta : IsTopCand (candidatesFor card files) a :=
            (isTopCand_iff hsort a).mpr ⟨ha, ((hprop a ha).mp hpa)⟩
          have htb : IsTopCand (candidatesFor card files) b :=
            (isTopCand_iff hsort b).mpr ⟨hb, ((hprop b hb).mp hpb)⟩
          exact absurd ((huniq a hta).trans (huniq b htb).symm) hab
      · constructor
        · intro _
          obtain ⟨a, b, ha, hb, hpa, hpb, hab⟩ := hpair
          exact ⟨a, b, (isTopCand_iff hsort a).mpr ⟨ha, ((hprop a ha).mp hpa)⟩,
            (isTopCand_iff hsort b).mpr ⟨hb, ((hprop b hb).mp hpb)⟩, hab⟩
        · intro _; rfl
      · intro _ fn
        simp only [List.mem_map]
        constructor
        · rintro ⟨c, hc, hcn⟩
          have := (top_mem_iff hsort c).mp hc
          exact ⟨c, (isTopCand_iff hsort c).mpr this, hcn⟩
        · rintro ⟨c, hc, hcn⟩
          have := (isTopCand_iff hsort c).mp hc
          exact ⟨c, (top_mem_iff hsort c).mpr this, hcn⟩
    · -- found case
      have hrf : matchSingleCard card files =
          { status := .found
            matched_file := best.name
            match_score := best.score } := by rw [hr, if_neg htop]
      have hK1 : (candidatesFor card files).countP
          (fun c => c.score == best.score && c.extra == best.extra) = 1 := by
        rw [hKlen] at htop
        omega
      rw [hrf]
      refine ⟨?_, ?_, ?_, by intro h; simp at h⟩
      · constructor
        · intro h; simp at h
        · intro h; rw [h] at hmemb; simp at hmemb
      · constructor
        · intro _
          refine ⟨best, (isTopCand_iff hsort best).mpr ⟨hmemb, rfl⟩, ?_, rfl, rfl⟩
          intro c2 hc2
          obtain ⟨hc2m, hc2s⟩ := (isTopCand_iff hsort c2).mp hc2
          by_contra hne
          have h2 := @two_le_countP
            (fun c => c.score == best.score && c.extra == best.extra) _ _ _
            hc2m ((hprop c2 hc2m).mpr hc2s) hmemb (by simp) hne
          omega
        · intro _; rfl
      · constructor
        · intro h; simp at h
        · rintro ⟨c, c2, hc, hc2, hne⟩
          obtain ⟨hcm, hcs⟩ := (isTopCand_iff hsort c).mp hc
          obtain ⟨hc2m, hc2s⟩ := (isTopCand_iff hsort c2).mp hc2
          have h2 := @two_le_countP
            (fun c => c.score == best.score && c.extra == best.extra) _ _ _
            hcm ((hprop c hcm).mpr hcs) hc2m ((hprop c2 hc2m).mpr hc2s) hne
          omega

/-- C2 counterexample: a file that survives the hard rules but is rejected
by content scoring still yields `missing`, so `missing` is not equivalent
to "zero files survived hard-rule filtering". -/
theorem c2_counterexample :
    hardPass ⟨"ab", "", "", 0, false, false⟩
      ⟨"f.jpg", false, "", 0, false, false, [], ["zz"]⟩ = true ∧
    (matchSingleCard ⟨"ab", "", "", 0, false, false⟩
      [⟨"f.jpg", false, "", 0, false, false, [], ["zz"]⟩]).status = .missing :=
  ⟨by decide, by decide⟩

/-- C2 witness: a two-file pool with distinct names. -/
theorem c2_witness :
    (([⟨"a_10.jpg", false, "", 10, false, false, ["arda"], ["arda"]⟩,
       ⟨"b_10.jpg", false, "", 10, false, false, ["arda"], ["arda"]⟩] :
        List FileInfo).map FileInfo.original_name).Nodup ∧
    (((matchSingleCard ⟨"arda", "", "", 10, false, false⟩
        [⟨"a_10.jpg", false, "", 10, false, false, ["arda"], ["arda"]⟩,
         ⟨"b_10.jpg", false, "", 10, false, false, ["arda"], ["arda"]⟩]).status = .missing ↔
      candidatesFor ⟨"arda", "", "", 10, false, false⟩
        [⟨"a_10.jpg", false, "", 10, false, false, ["arda"], ["arda"]⟩,
         ⟨"b_10.jpg", false, "", 10, false, false, ["arda"], ["arda"]⟩] = []) ∧
    ((matchSingleCard ⟨"arda", "", "", 10, false, false⟩
        [⟨"a_10.jpg", false, "", 10, false, false, ["arda"], ["arda"]⟩,
         ⟨"b_10.jpg", false, "", 10, false, false, ["arda"], ["arda"]⟩]).status = .found ↔
      ∃ c, IsTopCand (candidatesFor ⟨"arda", "", "", 10, false, false⟩
          [⟨"a_10.jpg", false, "", 10, false, false, ["arda"], ["arda"]⟩,
           ⟨"b_10.jpg", false, "", 10, false, false, ["arda"], ["arda"]⟩]) c ∧
        (∀ c2, IsTopCand (candidatesFor ⟨"arda", "", "", 10, false, false⟩
          [⟨"a_10.jpg", false, "", 10, false, false, ["arda"], ["arda"]⟩,
           ⟨"b_10.jpg", false, "", 10, false, false, ["arda"], ["arda"]⟩]) c2 → c2 = c) ∧
        (matchSingleCard ⟨"arda", "", "", 10, false, false⟩
          [⟨"a_10.jpg", false, "", 10, false, false, ["arda"], ["arda"]⟩,
           ⟨"b_10.jpg", false, "", 10, false, false, ["arda"], ["arda"]⟩]).matched_file = c.name ∧
        (matchSingleCard ⟨"arda", "", "", 10, false, false⟩
          [⟨"a_10.jpg", false, "", 10, false, false, ["arda"], ["arda"]⟩,
           ⟨"b_10.jpg", false, "", 10, false, false, ["arda"], ["arda"]⟩]).match_score = c.score) ∧
    ((matchSingleCard ⟨"arda", "", "", 10, false, false⟩
        [⟨"a_10.jpg", false, "", 10, false, false, ["arda"], ["arda"]⟩,
         ⟨"b_10.jpg", false, "", 10, false, false, ["arda"], ["arda"]⟩]).status = .conflict ↔
      ∃ c c2, IsTopCand (candidatesFor ⟨"arda", "", "", 10, false, false⟩
          [⟨"a_10.jpg", false, "", 10, false, false, ["arda"], ["arda"]⟩,
           ⟨"b_10.jpg", false, "", 10, false, false, ["arda"], ["arda"]⟩]) c ∧
        IsTopCand (candidatesFor ⟨"arda", "", "", 10, false, false⟩
          [⟨"a_10.jpg", false, "", 10, false, false, ["arda"], ["arda"]⟩,
           ⟨"b_10.jpg", false, "", 10, false, false, ["arda"], ["arda"]⟩]) c2 ∧ c ≠ c2) ∧
    ((matchSingleCard ⟨"arda", "", "", 10, false, false⟩
        [⟨"a_10.jpg", false, "", 10, false, false, ["arda"], ["arda"]⟩,
         ⟨"b_10.jpg", false, "", 10, false, false, ["arda"], ["arda"]⟩]).status = .conflict →
      ∀ fn, fn ∈ (matchSingleCard ⟨"arda", "", "", 10, false, false⟩
          [⟨"a_10.jpg", false, "", 10, false, false, ["arda"], ["arda"]⟩,
           ⟨"b_10.jpg", false, "", 10, false, false, ["arda"], ["arda"]⟩]).conflict_files ↔
        ∃ c, IsTopCand (candidatesFor ⟨"arda", "", "", 10, false, false⟩
          [⟨"a_10.jpg", false, "", 10, false, false, ["arda"], ["arda"]⟩,
           ⟨"b_10.jpg", false, "", 10, false, false, ["arda"], ["arda"]⟩]) c ∧ c.name = fn)) :=
  ⟨by decide,
    c2_match_classification ⟨"arda", "", "", 10, false, false⟩
      [⟨"a_10.jpg", false, "", 10, false, false, ["arda"], ["arda"]⟩,
       ⟨"b_10.jpg", false, "", 10, false, false, ["arda"], ["arda"]⟩] (by decide)⟩

/-- A filename that no candidate carries is never returned as matched and
never listed in the conflict set. -/
lemma not_selected_of_no_cand {card : CardInfo} {files : List FileInfo}
    {fn : String} (hne : fn ≠ "")
    (hno : ∀ c ∈ candidatesFor card files, c.name ≠ fn) :
    (matchSingleCard card files).matched_file ≠ fn ∧
      fn ∉ (matchSingleCard card files).conflict_files := by
  cases hsort : stableSort leCand (candidatesFor card files) with
  | nil =>
    have hr : matchSingleCard card files = { status := .missing } := by
      simp only [matchSingleCard]
      rw [hsort]
    rw [hr]
    exact ⟨fun h => hne h.symm, by simp⟩
  | cons best rest =>
    have hr := matchSingleCard_eq_of_sorted hsort
    have hbm := (sorted_head_max hsort).1
    by_cases htop : ((best :: rest).filter
        (fun c => c.score == best.score && c.extra == best.extra)).length > 1
    · rw [hr, if_pos htop]
      refine ⟨fun h => hne h.symm, ?_⟩
      intro hmem
      simp only [List.mem_map] at hmem
      obtain ⟨c, hc, hcn⟩ := hmem
      exact hno c ((top_mem_iff hsort c).mp hc).1 hcn
    · rw [hr, if_neg htop]
      exact ⟨fun h => hno best hbm h, by simp⟩

/-- A fold of similarity maxima stays below the threshold when every
eligible token's ratio does. -/
lemma foldl_max_lt (cp : String) (t : ℚ) :
    ∀ (parts : List String) (acc : ℚ),
      (∀ fp ∈ parts, lenDiffLE2 cp fp = true → ratio cp fp < t) →
      acc < t →
      parts.foldl (fun best fp =>
        if !lenDiffLE2 cp fp then best else max best (ratio cp fp)) acc < t := by
  intro parts
  induction parts with
  | nil => intro acc _ hacc; exact hacc
  | cons fp rest ih =>
    intro acc hq hacc
    rw [List.foldl_cons]
    cases hld : lenDiffLE2 cp fp with
    | true =>
      simp only [hld, Bool.not_true, Bool.false_eq_true, if_false]
      exact ih _ (fun x hx h => hq x (by simp [hx]) h)
        (max_lt hacc (hq fp (by simp) hld))
    | false =>
      simp only [hld, Bool.not_false, if_true]
      exact ih _ (fun x hx h => hq x (by simp [hx]) h) hacc

/-- A token with no exact occurrence and no eligible file token at ratio
at least 0.70 is unmatched. -/
lemma tokenMatched_eq_false (cp : String) (parts : List String)
    (hnin : cp ∉ parts)
    (hq : ∀ fp ∈ parts, lenDiffLE2 cp fp = true → ratio cp fp < mkRat 70 100) :
    tokenMatched cp parts = false := by
  unfold tokenMatched
  rw [Bool.or_eq_false_iff]
  constructor
  · show parts.elem cp = false
    rw [List.elem_eq_mem]
    exact decide_eq_false hnin
  · unfold bestSimilarity
    rw [decide_eq_false_iff_not]
    exact not_le.mpr (foldl_max_lt cp (mkRat 70 100) parts 0 hq (by decide))

/-- An unmatched token forces Stage-2 rejection. -/
lemma stage2_none_of_unmatched (parts : List String) (f : FileInfo) (t : String)
    (ht : t ∈ parts) (hm : tokenMatched t f.content_parts = false) :
    stage2 parts f = none := by
  have hlt : parts.countP (fun cp => tokenMatched cp f.content_parts) <
      parts.length := by
    refine lt_of_le_of_ne (List.countP_le_length _) (fun heq => ?_)
    have := List.countP_eq_length.mp heq t ht
    rw [hm] at this
    cases this
  unfold stage2
  rw [if_pos (by push_cast; omega)]

/-- C3: a hard-rule survivor with a card token that matches no file token
(no exact occurrence and nothing within the 2-character window reaching
ratio 0.70) is rejected in Stage 2 and never selected; when every file is
hard-rejected or token-rejected, the status is `missing`. -/
theorem c3_token_rejection (card : CardInfo) (files : List FileInfo)
    (f : FileInfo) (hnodup : (files.map FileInfo.original_name).Nodup)
    (hmem : f ∈ files) (hne : f.original_name ≠ "")
    (hhard : hardPass card f = true) (t : String) (ht : t ∈ get_all_parts card)
    (hexact : t ∉ f.content_parts)
    (hfuzzy : ∀ fp ∈ f.content_parts, lenDiffLE2 t fp = true →
      ratio t fp < mkRat 70 100) :
    stage2 (get_all_parts card) f = none ∧
    (matchSingleCard card files).matched_file ≠ f.original_name ∧
    f.original_name ∉ (matchSingleCard card files).conflict_files ∧
    ((∀ g ∈ files, hardPass card g = false ∨ stage2 (get_all_parts card) g = none) →
      (matchSingleCard card files).status = .missing) := by
  have htm := tokenMatched_eq_false t f.content_parts hexact hfuzzy
  have hs2 := stage2_none_of_unmatched (get_all_parts card) f t ht htm
  have hsel := not_selected_of_no_cand hne
    (no_cand_of_rejected hnodup hmem (Or.inr hs2))
  refine ⟨hs2, hsel.1, hsel.2, ?_⟩
  intro hall
  have hcand : candidatesFor card files = [] := by
    unfold candidatesFor
    rw [List.filterMap_eq_nil_iff]
    intro g hg
    rcases hall g hg with hr | hr
    · rw [hr]; rfl
    · by_cases hh : hardPass card g
      · rw [if_pos hh, hr]; rfl
      · rw [if_neg hh]
  simp only [matchSingleCard]
  rw [hcand]
  rfl

/-- C3 witness: card token `ab` against a lone file whose only token is
`zz`. -/
theorem c3_witness :
    (([⟨"f.jpg", false, "", 0, false, false, [], ["zz"]⟩] :
        List FileInfo).map FileInfo.original_name).Nodup ∧
    ("ab" ∈ get_all_parts ⟨"ab", "", "", 0, false, false⟩) ∧
    (stage2 (get_all_parts ⟨"ab", "", "", 0, false, false⟩)
      ⟨"f.jpg", false, "", 0, false, false, [], ["zz"]⟩ = none ∧
    (matchSingleCard ⟨"ab", "", "", 0, false, false⟩
      [⟨"f.jpg", false, "", 0, false, false, [], ["zz"]⟩]).matched_file ≠ "f.jpg" ∧
    "f.jpg" ∉ (matchSingleCard ⟨"ab", "", "", 0, false, false⟩
      [⟨"f.jpg", false, "", 0, false, false, [], ["zz"]⟩]).conflict_files ∧
    ((∀ g ∈ ([⟨"f.jpg", false, "", 0, false, false, [], ["zz"]⟩] : List FileInfo),
        hardPass ⟨"ab", "", "", 0, false, false⟩ g = false ∨
        stage2 (get_all_parts ⟨"ab", "", "", 0, false, false⟩) g = none) →
      (matchSingleCard ⟨"ab", "", "", 0, false, false⟩
        [⟨"f.jpg", false, "", 0, false, false, [], ["zz"]⟩]).status = .missing)) :=
  ⟨by decide, by decide,
    c3_token_rejection ⟨"ab", "", "", 0, false, false⟩
      [⟨"f.jpg", false, "", 0, false, false, [], ["zz"]⟩]
      ⟨"f.jpg", false, "", 0, false, false, [], ["zz"]⟩
      (by decide) (by decide) (by decide) (by decide) "ab" (by decide)
      (by decide) (by decide)⟩

/-- C4: Stage 1 prunes exactly on the three hard rules — signed-flag
equality, Base-flag equality, and (only for non-Base cards with positive
denominator) denominator equality; a non-Base card with denominator 0
imposes no denominator constraint; and a signed card is never matched to an
unsigned file regardless of content. -/
theorem c4_hard_rules (card : CardInfo) (f : FileInfo) (files : List FileInfo)
    (hnodup : (files.map FileInfo.original_name).Nodup) (hmem : f ∈ files)
    (hne : f.original_name ≠ "") :
    (hardPass card f = true ↔
      (card.is_signed = f.is_signed ∧ card.is_base = f.is_base ∧
        (card.is_base = false → 0 < card.denominator →
          f.denominator = card.denominator))) ∧
    (card.is_base = false → card.denominator = 0 →
      hardPass card f =
        ((card.is_signed == f.is_signed) && (card.is_base == f.is_base))) ∧
    (card.is_signed = true → f.is_signed = false →
      (matchSingleCard card files).matched_file ≠ f.original_name ∧
      f.original_name ∉ (matchSingleCard card files).conflict_files) := by
  refine ⟨?_, ?_, ?_⟩
  · unfold hardPass
    by_cases hb : card.is_base <;> by_cases hd : 0 < card.denominator <;>
      simp [hb, hd, beq_iff_eq] <;> tauto
  · intro hb hd
    unfold hardPass
    rw [hb, hd]
    simp
  · intro hcs hfs
    have hhard : hardPass card f = false := by
      unfold hardPass
      rw [hcs, hfs]
      rfl
    exact not_selected_of_no_cand hne
      (no_cand_of_rejected hnodup hmem (Or.inl hhard))

/-- C4 witness: a signed card against an unsigned file. -/
theorem c4_witness :
    (([⟨"f.jpg", false, "", 0, false, false, ["ab"], ["ab"]⟩] :
        List FileInfo).map FileInfo.original_name).Nodup ∧
    ((hardPass ⟨"ab", "", "", 0, true, false⟩
        ⟨"f.jpg", false, "", 0, false, false, ["ab"], ["ab"]⟩ = true ↔
      ((⟨"ab", "", "", 0, true, false⟩ : CardInfo).is_signed =
          (⟨"f.jpg", false, "", 0, false, false, ["ab"], ["ab"]⟩ : FileInfo).is_signed ∧
        (⟨"ab", "", "", 0, true, false⟩ : CardInfo).is_base =
          (⟨"f.jpg", false, "", 0, false, false, ["ab"], ["ab"]⟩ : FileInfo).is_base ∧
        ((⟨"ab", "", "", 0, true, false⟩ : CardInfo).is_base = false →
          0 < (⟨"ab", "", "", 0, true, false⟩ : CardInfo).denominator →
          (⟨"f.jpg", false, "", 0, false, false, ["ab"], ["ab"]⟩ : FileInfo).denominator =
            (⟨"ab", "", "", 0, true, false⟩ : CardInfo).denominator))) ∧
    ((⟨"ab", "", "", 0, true, false⟩ : CardInfo).is_base = false →
      (⟨"ab", "", "", 0, true, false⟩ : CardInfo).denominator = 0 →
      hardPass ⟨"ab", "", "", 0, true, false⟩
        ⟨"f.jpg", false, "", 0, false, false, ["ab"], ["ab"]⟩ =
        (((⟨"ab", "", "", 0, true, false⟩ : CardInfo).is_signed ==
            (⟨"f.jpg", false, "", 0, false, false, ["ab"], ["ab"]⟩ : FileInfo).is_signed) &&
         ((⟨"ab", "", "", 0, true, false⟩ : CardInfo).is_base ==
            (⟨"f.jpg", false, "", 0, false, false, ["ab"], ["ab"]⟩ : FileInfo).is_base))) ∧
    ((⟨"ab", "", "", 0, true, false⟩ : CardInfo).is_signed = true →
      (⟨"f.jpg", false, "", 0, false, false, ["ab"], ["ab"]⟩ : FileInfo).is_signed = false →
      (matchSingleCard ⟨"ab", "", "", 0, true, false⟩
        [⟨"f.jpg", false, "", 0, false, false, ["ab"], ["ab"]⟩]).matched_file ≠ "f.jpg" ∧
      "f.jpg" ∉ (matchSingleCard ⟨"ab", "", "", 0, true, false⟩
        [⟨"f.jpg", false, "", 0, false, false, ["ab"], ["ab"]⟩]).conflict_files)) :=
  ⟨by decide,
    c4_hard_rules ⟨"ab", "", "", 0, true, false⟩
      ⟨"f.jpg", false, "", 0, false, false, ["ab"], ["ab"]⟩
      [⟨"f.jpg", false, "", 0, false, false, ["ab"], ["ab"]⟩]
      (by decide) (by decide) (by decide)⟩

/-- A singleton candidate list yields `found` with that candidate. -/
lemma match_single_cand {card : CardInfo} {files : List FileInfo} (c : Cand)
    (h : candidatesFor card files = [c]) :
    matchSingleCard card files =
      { status := .found, matched_file := c.name, match_score := c.score } := by
  have hsort : stableSort leCand (candidatesFor card files) = [c] := by
    rw [h]; rfl
  rw [matchSingleCard_eq_of_sorted hsort, if_neg (by simp)]

/-- C5 (amended): a hard-rule survivor with zero missing card tokens gets
score `100 − extra·15` and becomes a candidate exactly when that score is at
least 70 (the source's minimum threshold); a lone candidate yields `found`
with its file and score. -/
theorem c5_score_and_threshold (card : CardInfo) (files : List FileInfo)
    (f : FileInfo) (hnodup : (files.map FileInfo.original_name).Nodup)
    (hmem : f ∈ files) (hne : f.original_name ≠ "")
    (hhard : hardPass card f = true)
    (hall : ∀ t ∈ get_all_parts card, tokenMatched t f.content_parts = true)
    (e : ℤ)
    (he : e = max 0 ((f.content_parts.length : ℤ) -
      ((get_all_parts card).length : ℤ))) :
    stage2 (get_all_parts card) f =
      (if 100 - e * 15 ≥ 70 then some (100 - e * 15, e) else none) ∧
    (100 - e * 15 ≥ 70 →
      (⟨f.original_name, 100 - e * 15, e⟩ : Cand) ∈ candidatesFor card files) ∧
    (100 - e * 15 < 70 →
      ∀ c ∈ candidatesFor card files, c.name ≠ f.original_name) ∧
    (∀ c : Cand, candidatesFor card files = [c] →
      matchSingleCard card files =
        { status := .found, matched_file := c.name, match_score := c.score }) := by
  have hcount : (get_all_parts card).countP
      (fun cp => tokenMatched cp f.content_parts) = (get_all_parts card).length :=
    List.countP_eq_length.mpr hall
  have hif : (if (f.content_parts.length : ℤ) -
        ((get_all_parts card).length : ℤ) < 0 then 0
      else (f.content_parts.length : ℤ) - ((get_all_parts card).length : ℤ)) = e := by
    rw [he]
    rcases lt_or_le ((f.content_parts.length : ℤ) -
        ((get_all_parts card).length : ℤ)) 0 with hlt | hge
    · rw [if_pos hlt, max_eq_left (le_of_lt hlt)]
    · rw [if_neg (not_lt.mpr hge), max_eq_right hge]
  have hs2 : stage2 (get_all_parts card) f =
      (if 100 - e * 15 ≥ 70 then some (100 - e * 15, e) else none) := by
    simp only [stage2]
    rw [hcount, if_neg (by omega), hif]
  refine ⟨hs2, ?_, ?_, fun c h => match_single_cand c h⟩
  · intro hsc
    refine (cand_spec card files ⟨f.original_name, 100 - e * 15, e⟩).mpr
      ⟨f, hmem, rfl, hhard, ?_⟩
    rw [hs2, if_pos hsc]
  · intro hsc
    refine no_cand_of_rejected hnodup hmem (Or.inr ?_)
    rw [hs2, if_neg (by omega)]

/-- C5 counterexample: a lone hard-rule survivor with every card token
matched exactly but three extra tokens (score 55 < 70) is dropped by the
threshold and the result is `missing`, not `found` with score 55. -/
theorem c5_counterexample :
    hardPass ⟨"ab", "", "", 0, false, false⟩
      ⟨"f.jpg", false, "", 0, false, false, [], ["ab", "cd", "ef", "gh"]⟩ = true ∧
    (∀ t ∈ get_all_parts ⟨"ab", "", "", 0, false, false⟩,
      tokenMatched t ["ab", "cd", "ef", "gh"] = true) ∧
    stage2 (get_all_parts ⟨"ab", "", "", 0, false, false⟩)
      ⟨"f.jpg", false, "", 0, false, false, [], ["ab", "cd", "ef", "gh"]⟩ = none ∧
    matchSingleCard ⟨"ab", "", "", 0, false, false⟩
      [⟨"f.jpg", false, "", 0, false, false, [], ["ab", "cd", "ef", "gh"]⟩] =
      { status := .missing } :=
  ⟨by decide, by decide, by decide, by decide⟩

/-- C5 witness: one extra token, score 85, single candidate found. -/
theorem c5_witness :
    (([⟨"f.jpg", false, "", 0, false, false, [], ["ab", "cd"]⟩] :
        List FileInfo).map FileInfo.original_name).Nodup ∧
    hardPass ⟨"ab", "", "", 0, false, false⟩
      ⟨"f.jpg", false, "", 0, false, false, [], ["ab", "cd"]⟩ = true ∧
    (1 : ℤ) = max 0 (((["ab", "cd"] : List String).length : ℤ) -
      ((get_all_parts ⟨"ab", "", "", 0, false, false⟩).length : ℤ)) ∧
    (stage2 (get_all_parts ⟨"ab", "", "", 0, false, false⟩)
      ⟨"f.jpg", false, "", 0, false, false, [], ["ab", "cd"]⟩ =
      (if (100 : ℤ) - 1 * 15 ≥ 70 then some (100 - 1 * 15, 1) else none)) ∧
    ((100 : ℤ) - 1 * 15 ≥ 70 →
      (⟨"f.jpg", 100 - 1 * 15, 1⟩ : Cand) ∈
        candidatesFor ⟨"ab", "", "", 0, false, false⟩
          [⟨"f.jpg", false, "", 0, false, false, [], ["ab", "cd"]⟩]) ∧
    (∀ c : Cand, candidatesFor ⟨"ab", "", "", 0, false, false⟩
        [⟨"f.jpg", false, "", 0, false, false, [], ["ab", "cd"]⟩] = [c] →
      matchSingleCard ⟨"ab", "", "", 0, false, false⟩
        [⟨"f.jpg", false, "", 0, false, false, [], ["ab", "cd"]⟩] =
        { status := .found, matched_file := c.name, match_score := c.score }) := by
  have h := c5_score_and_threshold ⟨"ab", "", "", 0, false, false⟩
    [⟨"f.jpg", false, "", 0, false, false, [], ["ab", "cd"]⟩]
    ⟨"f.jpg", false, "", 0, false, false, [], ["ab", "cd"]⟩
    (by decide) (by decide) (by decide) (by decide) (by decide) 1 (by decide)
  exact ⟨by decide, by decide, by decide, h.1, h.2.1, h.2.2.2⟩

end Mythos
